import Mathlib

/-!
Shallow embedding of the 2D polygon kernel of `UM/Math/Polygon.py`.

Modelling conventions:
* double precision floats are modelled by the real numbers;
* a point or vector is a pair of reals, a 2 by 2 matrix a pair of rows;
* operations that the source performs on the heap (reading `self._points`,
  assigning `self._points`) are modelled by explicit point lists in and out;
* a float operation that produces NaN (division by a zero euclidean norm)
  is modelled, following the error model of the specification, as a
  detectable failure (`none` / a dedicated error constructor) instead of a
  silently propagating NaN, since the real numbers have no NaN value;
* `project` on an empty point list raises IndexError at its first statement
  in the source (the InvalidPolygon failure of the specification); this is
  modelled by an `Option` result.
-/

namespace Uranium

open scoped Classical

/-- Points and vectors of the 2D kernel: a pair of real coordinates. -/
abbrev V : Type := ℝ × ℝ

/-- numpy.dot of two 2-vectors. -/
def dot (n p : V) : ℝ := n.1 * p.1 + n.2 * p.2

/-- numpy.linalg.norm of a 2-vector: the euclidean length. -/
noncomputable def nrm (v : V) : ℝ := Real.sqrt (v.1 ^ 2 + v.2 ^ 2)

/-- `Polygon.project`: the running minimum and maximum of the dot products of
the normal with every vertex, seeded with the dot product of the first
vertex; `none` models the IndexError (InvalidPolygon) on an empty point
sequence, raised by the very first statement of the method. -/
noncomputable def project (normal : V) : List V → Option (ℝ × ℝ)
  | [] => none
  | p :: ps =>
    some ((p :: ps).foldl
      (fun st q => (min st.1 (dot normal q), max st.2 (dot normal q)))
      (dot normal p, dot normal p))

/-- A 2 by 2 matrix given as a pair of rows. -/
abbrev M2 : Type := V × V

/-- Row vector times matrix, the orientation numpy gives
`point_matrix * reflection`. -/
def rowMul (v : V) (m : M2) : V :=
  (v.1 * m.1.1 + v.2 * m.2.1, v.1 * m.1.2 + v.2 * m.2.2)

/-- Matrix times column vector, the textbook application of a reflection
matrix to a vector. -/
def mulVec (m : M2) (v : V) : V :=
  (m.1.1 * v.1 + m.1.2 * v.2, m.2.1 * v.1 + m.2.2 * v.2)

/-- `numpy.transpose(axis_matrix) * axis_matrix` for a row vector `d`:
the outer product of `d` with itself. -/
def outer (d : V) : M2 := ((d.1 * d.1, d.1 * d.2), (d.2 * d.1, d.2 * d.2))

/-- Scalar times matrix. -/
def m2smul (c : ℝ) (m : M2) : M2 :=
  ((c * m.1.1, c * m.1.2), (c * m.2.1, c * m.2.2))

/-- Matrix difference. -/
def m2sub (a b : M2) : M2 :=
  ((a.1.1 - b.1.1, a.1.2 - b.1.2), (a.2.1 - b.2.1, a.2.2 - b.2.2))

/-- `numpy.identity(2)`. -/
def ident2 : M2 := ((1, 0), (0, 1))

/-- The reflection matrix `2 * transpose(axis_matrix) * axis_matrix -
identity(2)` built inside `Polygon.mirror`. -/
def householder (d : V) : M2 := m2sub (m2smul 2 (outer d)) ident2

/-- `Polygon.mirror`.  The source guards with `axis_direction == [0,0,0]`, a
three component zero that a 2D direction never equals (numpy evaluates the
shape mismatched comparison to False), so the guard cannot fire for a 2D
input and a zero direction reaches the division by its zero norm; the float
NaN corruption this causes is modelled as the detectable failure `none`.
Otherwise every point is translated by minus `point_on_axis`, multiplied as
a row vector with the reflection matrix, and translated back. -/
noncomputable def mirror (pts : List V) (point_on_axis axis_direction : V) :
    Option (List V) :=
  if [axis_direction.1, axis_direction.2] = ([0, 0, 0] : List ℝ) then some pts
  else if nrm axis_direction = 0 then none
  else
    some (pts.map fun p =>
      rowMul (p - point_on_axis)
        (householder ((nrm axis_direction)⁻¹ • axis_direction)) + point_on_axis)

/-- The candidate separating axis of one edge: the perpendicular of
`p1 - p0` by the reverse then negate the second component convention of the
source, normalised to unit length; `none` models a zero length edge, whose
normalisation divides by zero (the DegenerateAxis failure of the
specification). -/
noncomputable def normalizeAxis (p0 p1 : V) : Option V :=
  if nrm ((p1 - p0).2, -(p1 - p0).1) = 0 then none
  else some ((nrm ((p1 - p0).2, -(p1 - p0).1))⁻¹ • ((p1 - p0).2, -(p1 - p0).1))

/-- The edges of the implicitly closed polygon in loop order: edge `n` joins
vertex `n - 1` (python indexing, so vertex `-1` is the last vertex) to
vertex `n`. -/
def edges (pts : List V) : List (V × V) :=
  match pts.getLast? with
  | none => []
  | some l => List.zip (l :: pts.dropLast) pts

/-- The control state of the SAT loops of `intersectsPolygon`. -/
inductive SatState where
  | degenerate : SatState
  | invalid : SatState
  | separated : SatState
  | running : ℝ → Option V → SatState

/-- One iteration of a SAT loop of `intersectsPolygon`: build the axis of
the edge, project both polygons, return None early on a separating axis,
otherwise keep the axis of the smallest overlap seen so far. -/
noncomputable def satStep (A B : List V) (retSize : ℝ) (ret : Option V)
    (e : V × V) : SatState :=
  match normalizeAxis e.1 e.2 with
  | none => SatState.degenerate
  | some normal =>
    match project normal A, project normal B with
    | some (aMin, aMax), some (bMin, bMax) =>
      if aMin > bMax then SatState.separated
      else if bMin > aMax then SatState.separated
      else if min aMax bMax - max aMin bMin < retSize then
        SatState.running (min aMax bMax - max aMin bMin)
          (some (if aMin < bMin
            then (-(min aMax bMax - max aMin bMin)) • normal
            else (min aMax bMax - max aMin bMin) • normal))
      else SatState.running retSize ret
    | _, _ => SatState.invalid

/-- The two SAT loops of `intersectsPolygon`, run uniformly over a list of
edges threaded through the running state. -/
noncomputable def satLoop (A B : List V) : List (V × V) → ℝ → Option V → SatState
  | [], r, ret => SatState.running r ret
  | e :: es, r, ret =>
    match satStep A B r ret e with
    | SatState.running r2 ret2 => satLoop A B es r2 ret2
    | s => s

/-- The observable outcome of `Polygon.intersectsPolygon`. -/
inductive SatOutcome where
  | error : SatOutcome
  | invalid : SatOutcome
  | none : SatOutcome
  | mtv : V → SatOutcome

/-- `Polygon.intersectsPolygon`: run the SAT loop over the edges of self and
then the edges of other, starting from the sentinel size 10000000.0 and an
unset return vector. -/
noncomputable def intersectsPolygon (A B : List V) : SatOutcome :=
  match satLoop A B (edges A ++ edges B) 10000000 Option.none with
  | SatState.degenerate => SatOutcome.error
  | SatState.invalid => SatOutcome.invalid
  | SatState.separated => SatOutcome.none
  | SatState.running _ Option.none => SatOutcome.none
  | SatState.running _ (Option.some v) => SatOutcome.mtv v

/-- The axis data of one edge: the unit normal and the two projection
ranges, when the edge is not degenerate and both polygons are nonempty. -/
noncomputable def axisData (A B : List V) (e : V × V) :
    Option (V × (ℝ × ℝ) × (ℝ × ℝ)) :=
  (normalizeAxis e.1 e.2).bind fun nl =>
    (project nl A).bind fun pa =>
      (project nl B).map fun pb => (nl, pa, pb)

/-- An axis that the SAT loop passes through without stopping: defined,
projectable and with overlapping projection ranges. -/
def Good (A B : List V) (e : V × V) : Prop :=
  ∃ nl pa pb, axisData A B e = some (nl, pa, pb) ∧ pa.1 ≤ pb.2 ∧ pb.1 ≤ pa.2

noncomputable def normalOf (A B : List V) (e : V × V) : V :=
  ((axisData A B e).getD ((0, 0), (0, 0), (0, 0))).1

noncomputable def aMinOf (A B : List V) (e : V × V) : ℝ :=
  ((axisData A B e).getD ((0, 0), (0, 0), (0, 0))).2.1.1

noncomputable def aMaxOf (A B : List V) (e : V × V) : ℝ :=
  ((axisData A B e).getD ((0, 0), (0, 0), (0, 0))).2.1.2

noncomputable def bMinOf (A B : List V) (e : V × V) : ℝ :=
  ((axisData A B e).getD ((0, 0), (0, 0), (0, 0))).2.2.1

noncomputable def bMaxOf (A B : List V) (e : V × V) : ℝ :=
  ((axisData A B e).getD ((0, 0), (0, 0), (0, 0))).2.2.2

/-- The overlap length of one tested axis. -/
noncomputable def overlapSize (A B : List V) (e : V × V) : ℝ :=
  min (aMaxOf A B e) (bMaxOf A B e) - max (aMinOf A B e) (bMinOf A B e)

/-- The signed translation vector the loop stores for one winning axis. -/
noncomputable def mtvOf (A B : List V) (e : V × V) : V :=
  if aMinOf A B e < bMinOf A B e then (-(overlapSize A B e)) • normalOf A B e
  else (overlapSize A B e) • normalOf A B e

/-- The pure fold the loop computes over a run of good axes. -/
noncomputable def satFold (A B : List V) (es : List (V × V)) (st : ℝ × Option V) :
    ℝ × Option V :=
  es.foldl (fun st e =>
    if overlapSize A B e < st.1 then (overlapSize A B e, some (mtvOf A B e)) else st) st

/-- `Polygon.getMinkowskiSum`: the `n * m` pairwise sums in row major order,
entry `n * len(other) + m` holding `self[n] + other[m]`.  The sleep call of
the source has no effect on the value. -/
def minkowskiSum (A B : List V) : List V :=
  A.flatMap fun p => B.map fun q => p + q

/-- The unit square at the origin. -/
noncomputable def sqA : List V := [(0, 0), (1, 0), (1, 1), (0, 1)]

/-- The unit square shifted by (1/2, 0). -/
noncomputable def sq05 : List V := [(1/2, 0), (3/2, 0), (3/2, 1), (1/2, 1)]

/-- The unit square shifted by (1, 0): it shares an edge with `sqA`. -/
noncomputable def sq1 : List V := [(1, 0), (2, 0), (2, 1), (1, 1)]

/-- The unit square shifted by (2, 0). -/
noncomputable def sq2 : List V := [(2, 0), (3, 0), (3, 1), (2, 1)]

/-- The unit square shifted by (3, 0). -/
noncomputable def sq3 : List V := [(3, 0), (4, 0), (4, 1), (3, 1)]

/-- A unit square with a repeated last vertex: its wrap around edge from
vertex 4 to vertex 4 has zero length. -/
noncomputable def dupSq : List V := [(0, 0), (1, 0), (1, 1), (0, 1), (0, 1)]

/-- An axis aligned square of side 10000000 at the origin: every projected
overlap of the pair (bigSq, bigSq) has exactly the sentinel length. -/
noncomputable def bigSq : List V :=
  [(0, 0), (10000000, 0), (10000000, 10000000), (0, 10000000)]

/-- The separating axis criterion of the loop holds nowhere: every tested
axis sees overlapping projection ranges (for convex input this is exactly
the statement that the polygons intersect). -/
def NoSeparatingAxis (A B : List V) : Prop :=
  ∀ e ∈ edges A ++ edges B, Good A B e

/-- Strict lexicographic order on points. -/
def ptLt (p q : V) : Prop := p.1 < q.1 ∨ (p.1 = q.1 ∧ p.2 < q.2)

/-- The orientation cross product of the triple (p, q, r): the signed area
criterion that `_isRightTurn` computes; negative means a right turn. -/
def cross (p q r : V) : ℝ :=
  (q.1 - p.1) * (r.2 - p.2) - (q.2 - p.2) * (r.1 - p.1)

/-- Pointwise negation; it preserves `cross` and reverses the
lexicographic order. -/
def pneg (p : V) : V := (-p.1, -p.2)

/-- All triples of adjacent elements of a reversed chain make right turns:
in the accumulator of the chain loop the head is the latest point, so a
block r :: q :: p means the python order p, q, r. -/
def RT3 : List V → Prop
  | r :: q :: p :: rest => cross p q r < 0 ∧ RT3 (q :: p :: rest)
  | _ => True

/-- `Polygon._isRightTurn`: whether the signed expression
`sum1 - sum2` is negative (the source returns the ints 1 and 0). -/
noncomputable def isRightTurn (p q r : V) : Bool :=
  if q.1 * r.2 + p.1 * q.2 + r.1 * p.2 - (q.1 * p.2 + r.1 * q.2 + p.1 * r.2) < 0
  then true else false

/-- The inner while loop of the chain construction on the reversed chain
with its newest point held apart: while the chain has more than two points
and the last three (p, q and the new point r in python order) do not make
a right turn, drop the middle one. -/
noncomputable def popBadAux (r : V) : List V → List V
  | q :: p :: rest =>
    if isRightTurn p q r then r :: q :: p :: rest
    else popBadAux r (p :: rest)
  | l => r :: l

/-- The inner while loop of the chain construction, on the reversed chain
(head of the list is the last element of the python list). -/
noncomputable def popBad : List V → List V
  | [] => []
  | r :: t => popBadAux r t

/-- The chain construction loop: append each point, then run the while
loop; the accumulator is the reversed chain. -/
noncomputable def chainRev (acc : List V) : List V → List V
  | [] => acc
  | p :: ps => chainRev (popBad (p :: acc)) ps

/-- Lexicographic comparison of points, as python compares coordinate
tuples. -/
def ptLe (p q : V) : Prop := p.1 < q.1 ∨ (p.1 = q.1 ∧ p.2 ≤ q.2)

/-- Deduplicate (the dict of the source keyed on the exact coordinate pair)
then sort lexicographically (list.sort on tuples). -/
noncomputable def sortPts (pts : List V) : List V :=
  (pts.dedup).insertionSort ptLe

instance : IsTotal V ptLe := ⟨fun p q => by
  rcases lt_trichotomy p.1 q.1 with h | h | h
  · exact Or.inl (Or.inl h)
  · rcases le_total p.2 q.2 with h2 | h2
    · exact Or.inl (Or.inr ⟨h, h2⟩)
    · exact Or.inr (Or.inr ⟨h.symm, h2⟩)
  · exact Or.inr (Or.inl h)⟩

instance : IsTrans V ptLe := ⟨fun p q r h1 h2 => by
  rcases h1 with h1 | ⟨h1a, h1b⟩ <;> rcases h2 with h2 | ⟨h2a, h2b⟩
  · exact Or.inl (h1.trans h2)
  · exact Or.inl (lt_of_lt_of_eq h1 h2a)
  · exact Or.inl (lt_of_eq_of_lt h1a h2)
  · exact Or.inr ⟨h1a.trans h2a, h1b.trans h2b⟩⟩

/-- `Polygon.getConvexHull`, manual monotone chain path of the source: sort
the deduplicated points, handle the sizes zero and one, build the upper
chain on the sorted points and the lower chain on the reversed sorted
points, drop the first and last point of the lower chain, and concatenate.
The float32 cast of the output array is the identity in the real model. -/
noncomputable def getConvexHull (pts : List V) : List V :=
  match sortPts pts, (sortPts pts).reverse with
  | [], _ => []
  | [p], _ => [p]
  | p0 :: p1 :: rest, q0 :: q1 :: qrest =>
    (chainRev [p1, p0] rest).reverse ++
      (((chainRev [q1, q0] qrest).reverse).drop 1).dropLast
  | _, _ => []

/-- `Polygon.getMinkowskiHull`. -/
noncomputable def getMinkowskiHull (A B : List V) : List V :=
  getConvexHull (minkowskiSum A B)

/-- State passing form of `intersectsPolygon`: the method body assigns no
attribute of self or of other (its arrays `normal`, projections and `ret`
are locals), so the embedding returns the two operand point lists untouched
next to the computed outcome. -/
noncomputable def intersectsPolygonS (self other : List V) :
    (List V × List V) × SatOutcome :=
  ((self, other), intersectsPolygon self other)

/-- State passing form of `getMinkowskiSum`: the method body writes only the
freshly allocated result array, so the embedding returns the two operand
point lists untouched next to the result. -/
def minkowskiSumS (self other : List V) : (List V × List V) × List V :=
  ((self, other), minkowskiSum self other)

end Uranium

namespace Uranium

open scoped Classical

/-! ### Basic norm and axis helpers -/

lemma nrm_eval (x y r : ℝ) (hr : 0 ≤ r) (h : x ^ 2 + y ^ 2 = r ^ 2) :
    nrm (x, y) = r := by
  rw [nrm]; simp only [h]; exact Real.sqrt_sq hr

lemma nrm_eq_zero_iff (v : V) : nrm v = 0 ↔ v = (0, 0) := by
  rw [nrm, Real.sqrt_eq_zero (by positivity)]
  constructor
  · intro h
    have h1 : v.1 = 0 := by nlinarith [sq_nonneg v.1, sq_nonneg v.2]
    have h2 : v.2 = 0 := by nlinarith [sq_nonneg v.1, sq_nonneg v.2]
    exact Prod.ext h1 h2
  · intro h; rw [h]; norm_num

lemma normalizeAxis_deg (p0 p1 : V) (h : p0 = p1) : normalizeAxis p0 p1 = none := by
  subst h
  rw [normalizeAxis]
  simp [nrm_eq_zero_iff]

lemma normalizeAxis_eval (x0 y0 x1 y1 r : ℝ) (hr : 0 < r)
    (h : (y1 - y0) ^ 2 + (x0 - x1) ^ 2 = r ^ 2) :
    normalizeAxis (x0, y0) (x1, y1) = some (r⁻¹ * (y1 - y0), r⁻¹ * (x0 - x1)) := by
  have he : (((x1, y1) : V) - (x0, y0)) = (x1 - x0, y1 - y0) := by
    simp [Prod.mk_sub_mk]
  have h2 : -(x1 - x0) = x0 - x1 := by ring
  have hn : nrm ((((x1, y1) : V) - (x0, y0)).2, -(((x1, y1) : V) - (x0, y0)).1) = r := by
    rw [he]
    simp only [h2]
    exact nrm_eval _ _ r hr.le h
  rw [normalizeAxis, hn]
  rw [if_neg (by positivity)]
  rw [he]
  simp [h2, Prod.smul_mk, smul_eq_mul]

/-! ### The data of one tested axis -/

lemma axisData_eval (A B : List V) (e : V × V) (nl : V) (pa pb : ℝ × ℝ)
    (hn : normalizeAxis e.1 e.2 = some nl)
    (ha : project nl A = some pa) (hb : project nl B = some pb) :
    axisData A B e = some (nl, pa, pb) := by
  rw [axisData, hn, Option.some_bind, ha, Option.some_bind, hb, Option.map_some']

lemma axisData_inv (A B : List V) (e : V × V) (nl : V) (pa pb : ℝ × ℝ)
    (hd : axisData A B e = some (nl, pa, pb)) :
    normalizeAxis e.1 e.2 = some nl ∧ project nl A = some pa ∧
      project nl B = some pb := by
  rw [axisData] at hd
  rcases hn : normalizeAxis e.1 e.2 with _ | nl2 <;> rw [hn] at hd
  · simp at hd
  rw [Option.some_bind] at hd
  rcases ha : project nl2 A with _ | pa2 <;> rw [ha] at hd
  · simp at hd
  rw [Option.some_bind] at hd
  rcases hb : project nl2 B with _ | pb2 <;> rw [hb] at hd
  · simp at hd
  rw [Option.map_some'] at hd
  simp only [Option.some.injEq, Prod.mk.injEq] at hd
  obtain ⟨h1, h2, h3⟩ := hd
  rw [← h1, ← h2, ← h3]
  exact ⟨rfl, ha, hb⟩

lemma normalOf_eval (A B : List V) (e : V × V) (nl : V) (pa pb : ℝ × ℝ)
    (hd : axisData A B e = some (nl, pa, pb)) : normalOf A B e = nl := by
  rw [normalOf, hd]; rfl

lemma aMinOf_eval (A B : List V) (e : V × V) (nl : V) (pa pb : ℝ × ℝ)
    (hd : axisData A B e = some (nl, pa, pb)) : aMinOf A B e = pa.1 := by
  rw [aMinOf, hd]; rfl

lemma aMaxOf_eval (A B : List V) (e : V × V) (nl : V) (pa pb : ℝ × ℝ)
    (hd : axisData A B e = some (nl, pa, pb)) : aMaxOf A B e = pa.2 := by
  rw [aMaxOf, hd]; rfl

lemma bMinOf_eval (A B : List V) (e : V × V) (nl : V) (pa pb : ℝ × ℝ)
    (hd : axisData A B e = some (nl, pa, pb)) : bMinOf A B e = pb.1 := by
  rw [bMinOf, hd]; rfl

lemma bMaxOf_eval (A B : List V) (e : V × V) (nl : V) (pa pb : ℝ × ℝ)
    (hd : axisData A B e = some (nl, pa, pb)) : bMaxOf A B e = pb.2 := by
  rw [bMaxOf, hd]; rfl

lemma overlapSize_eval (A B : List V) (e : V × V) (nl : V) (pa pb : ℝ × ℝ)
    (hd : axisData A B e = some (nl, pa, pb)) :
    overlapSize A B e = min pa.2 pb.2 - max pa.1 pb.1 := by
  rw [overlapSize, aMinOf_eval A B e nl pa pb hd, aMaxOf_eval A B e nl pa pb hd,
    bMinOf_eval A B e nl pa pb hd, bMaxOf_eval A B e nl pa pb hd]

/-! ### Evaluating one step of the loop -/

lemma satStep_sep (A B : List V) (r : ℝ) (ret : Option V) (e : V × V)
    (nl : V) (a1 a2 b1 b2 : ℝ)
    (hn : normalizeAxis e.1 e.2 = some nl)
    (ha : project nl A = some (a1, a2)) (hb : project nl B = some (b1, b2))
    (hsep : a1 > b2 ∨ b1 > a2) :
    satStep A B r ret e = SatState.separated := by
  simp only [satStep, hn, ha, hb]
  rcases hsep with h | h
  · rw [if_pos h]
  · by_cases h1 : a1 > b2
    · rw [if_pos h1]
    · rw [if_neg h1, if_pos h]

lemma satStep_deg (A B : List V) (r : ℝ) (ret : Option V) (e : V × V)
    (hn : normalizeAxis e.1 e.2 = none) :
    satStep A B r ret e = SatState.degenerate := by
  simp only [satStep, hn]

lemma satStep_data (A B : List V) (r : ℝ) (ret : Option V) (e : V × V)
    (nl : V) (a1 a2 b1 b2 : ℝ)
    (hn : normalizeAxis e.1 e.2 = some nl)
    (ha : project nl A = some (a1, a2)) (hb : project nl B = some (b1, b2))
    (h1 : a1 ≤ b2) (h2 : b1 ≤ a2) :
    satStep A B r ret e =
      if min a2 b2 - max a1 b1 < r then
        SatState.running (min a2 b2 - max a1 b1)
          (some (if a1 < b1 then (-(min a2 b2 - max a1 b1)) • nl
            else (min a2 b2 - max a1 b1) • nl))
      else SatState.running r ret := by
  simp only [satStep, hn, ha, hb]
  rw [if_neg (not_lt.mpr h1), if_neg (not_lt.mpr h2)]

lemma satStep_good (A B : List V) (r : ℝ) (ret : Option V) (e : V × V)
    (hg : Good A B e) :
    satStep A B r ret e =
      if overlapSize A B e < r then
        SatState.running (overlapSize A B e) (some (mtvOf A B e))
      else SatState.running r ret := by
  obtain ⟨nl, pa, pb, hd, h1, h2⟩ := hg
  obtain ⟨hn, ha, hb⟩ := axisData_inv A B e nl pa pb hd
  rw [satStep_data A B r ret e nl pa.1 pa.2 pb.1 pb.2 hn (by rw [ha]) (by rw [hb]) h1 h2]
  rw [overlapSize_eval A B e nl pa pb hd, mtvOf,
    overlapSize_eval A B e nl pa pb hd,
    aMinOf_eval A B e nl pa pb hd, bMinOf_eval A B e nl pa pb hd,
    normalOf_eval A B e nl pa pb hd]

/-! ### Running the loop -/

lemma satLoop_nil (A B : List V) (r : ℝ) (ret : Option V) :
    satLoop A B [] r ret = SatState.running r ret := rfl

lemma satLoop_cons_running (A B : List V) (e : V × V) (es : List (V × V))
    (r r2 : ℝ) (ret ret2 : Option V)
    (h : satStep A B r ret e = SatState.running r2 ret2) :
    satLoop A B (e :: es) r ret = satLoop A B es r2 ret2 := by
  rw [satLoop, h]

lemma satLoop_cons_stop (A B : List V) (e : V × V) (es : List (V × V))
    (r : ℝ) (ret : Option V) (s : SatState)
    (h : satStep A B r ret e = s)
    (hs : ∀ r2 ret2, s ≠ SatState.running r2 ret2) :
    satLoop A B (e :: es) r ret = s := by
  rw [satLoop, h]
  cases s with
  | running r2 ret2 => exact absurd rfl (hs r2 ret2)
  | degenerate => rfl
  | invalid => rfl
  | separated => rfl

lemma satLoop_append (A B : List V) (l1 l2 : List (V × V)) (r : ℝ) (ret : Option V) :
    satLoop A B (l1 ++ l2) r ret =
      match satLoop A B l1 r ret with
      | SatState.running r2 ret2 => satLoop A B l2 r2 ret2
      | s => s := by
  induction l1 generalizing r ret with
  | nil => rw [List.nil_append, satLoop_nil]
  | cons e es ih =>
    rw [List.cons_append, satLoop, satLoop]
    cases satStep A B r ret e with
    | running r2 ret2 => exact ih r2 ret2
    | degenerate => rfl
    | invalid => rfl
    | separated => rfl

lemma satFold_nil (A B : List V) (st : ℝ × Option V) : satFold A B [] st = st := rfl

lemma satFold_cons (A B : List V) (e : V × V) (es : List (V × V)) (r : ℝ)
    (ret : Option V) :
    satFold A B (e :: es) (r, ret) =
      satFold A B es
        (if overlapSize A B e < r then (overlapSize A B e, some (mtvOf A B e))
          else (r, ret)) := rfl

lemma satLoop_good_run (A B : List V) (es : List (V × V))
    (hg : ∀ e ∈ es, Good A B e) (r : ℝ) (ret : Option V) :
    satLoop A B es r ret =
      SatState.running (satFold A B es (r, ret)).1 (satFold A B es (r, ret)).2 := by
  induction es generalizing r ret with
  | nil => rfl
  | cons e es ih =>
    have he : Good A B e := hg e (List.mem_cons_self e es)
    have hes : ∀ x ∈ es, Good A B x := fun x hx => hg x (List.mem_cons_of_mem e hx)
    rw [satLoop, satStep_good A B r ret e he, satFold_cons]
    by_cases hlt : overlapSize A B e < r
    · rw [if_pos hlt, if_pos hlt]
      exact ih hes _ _
    · rw [if_neg hlt, if_neg hlt]
      exact ih hes _ _

lemma satFold_min_lt (A B : List V) (m : ℝ) :
    ∀ (es : List (V × V)) (r : ℝ) (ret : Option V),
      (∀ e ∈ es, m < overlapSize A B e) → m < r →
      m < (satFold A B es (r, ret)).1 := by
  intro es
  induction es with
  | nil => intro r ret _ hr; exact hr
  | cons e es ih =>
    intro r ret hes hr
    rw [satFold_cons]
    by_cases hlt : overlapSize A B e < r
    · rw [if_pos hlt]
      exact ih _ _ (fun x hx => hes x (List.mem_cons_of_mem e hx))
        (hes e (List.mem_cons_self e es))
    · rw [if_neg hlt]
      exact ih _ _ (fun x hx => hes x (List.mem_cons_of_mem e hx)) hr

lemma satFold_stable (A B : List V) (es : List (V × V)) (m : ℝ) (ret : Option V)
    (hes : ∀ e ∈ es, m ≤ overlapSize A B e) :
    satFold A B es (m, ret) = (m, ret) := by
  induction es with
  | nil => rfl
  | cons e es ih =>
    rw [satFold_cons,
      if_neg (not_lt.mpr (hes e (List.mem_cons_self e es)))]
    exact ih (fun x hx => hes x (List.mem_cons_of_mem e hx))

/-! ### The projection fold -/

lemma project_fold_spec (n : V) :
    ∀ (l : List V) (a b : ℝ),
      (l.foldl (fun st q => (min st.1 (dot n q), max st.2 (dot n q))) (a, b)).1 ≤ a ∧
      b ≤ (l.foldl (fun st q => (min st.1 (dot n q), max st.2 (dot n q))) (a, b)).2 ∧
      (∀ p ∈ l,
        (l.foldl (fun st q => (min st.1 (dot n q), max st.2 (dot n q))) (a, b)).1 ≤ dot n p ∧
        dot n p ≤ (l.foldl (fun st q => (min st.1 (dot n q), max st.2 (dot n q))) (a, b)).2) ∧
      ((l.foldl (fun st q => (min st.1 (dot n q), max st.2 (dot n q))) (a, b)).1 = a ∨
        ∃ p ∈ l, (l.foldl (fun st q => (min st.1 (dot n q), max st.2 (dot n q))) (a, b)).1 = dot n p) ∧
      ((l.foldl (fun st q => (min st.1 (dot n q), max st.2 (dot n q))) (a, b)).2 = b ∨
        ∃ p ∈ l, (l.foldl (fun st q => (min st.1 (dot n q), max st.2 (dot n q))) (a, b)).2 = dot n p) := by
  intro l
  induction l with
  | nil =>
    intro a b
    exact ⟨le_refl a, le_refl b, by simp, Or.inl rfl, Or.inl rfl⟩
  | cons q l ih =>
    intro a b
    rw [List.foldl_cons]
    obtain ⟨ih1, ih2, ih3, ih4, ih5⟩ := ih (min a (dot n q)) (max b (dot n q))
    refine ⟨le_trans ih1 (min_le_left _ _), le_trans (le_max_left _ _) ih2, ?_, ?_, ?_⟩
    · intro p hp
      rcases List.mem_cons.mp hp with rfl | hp
      · exact ⟨le_trans ih1 (min_le_right _ _), le_trans (le_max_right _ _) ih2⟩
      · exact ih3 p hp
    · rcases ih4 with h | ⟨p, hp, h⟩
      · rcases min_cases a (dot n q) with ⟨hm, _⟩ | ⟨hm, _⟩
        · exact Or.inl (h.trans hm)
        · exact Or.inr ⟨q, List.mem_cons_self q l, h.trans hm⟩
      · exact Or.inr ⟨p, List.mem_cons_of_mem q hp, h⟩
    · rcases ih5 with h | ⟨p, hp, h⟩
      · rcases max_cases b (dot n q) with ⟨hm, _⟩ | ⟨hm, _⟩
        · exact Or.inl (h.trans hm)
        · exact Or.inr ⟨q, List.mem_cons_self q l, h.trans hm⟩
      · exact Or.inr ⟨p, List.mem_cons_of_mem q hp, h⟩

/-- C6.  `project` on an empty point sequence fails (InvalidPolygon,
detected before anything is computed); on a nonempty polygon it returns
exactly the minimum and the maximum of the dot products of the normal with
the vertices. -/
theorem project_empty_fails_nonempty_minmax (normal : V) (pts : List V)
    (h : pts ≠ []) :
    project normal [] = none ∧
    ∃ mn mx, project normal pts = some (mn, mx) ∧
      (∀ p ∈ pts, mn ≤ dot normal p ∧ dot normal p ≤ mx) ∧
      (∃ p ∈ pts, dot normal p = mn) ∧ (∃ p ∈ pts, dot normal p = mx) := by
  refine ⟨rfl, ?_⟩
  match pts, h with
  | p :: ps, _ =>
    obtain ⟨h1, h2, h3, h4, h5⟩ := project_fold_spec normal (p :: ps) (dot normal p) (dot normal p)
    refine ⟨_, _, rfl, h3, ?_, ?_⟩
    · rcases h4 with h | ⟨x, hx, h⟩
      · exact ⟨p, List.mem_cons_self p ps, h.symm⟩
      · exact ⟨x, hx, h.symm⟩
    · rcases h5 with h | ⟨x, hx, h⟩
      · exact ⟨p, List.mem_cons_self p ps, h.symm⟩
      · exact ⟨x, hx, h.symm⟩

/-- Witness for C6 on the unit square with normal (1,0): the projected
extent is the pair of 0 and 1. -/
theorem project_empty_fails_nonempty_minmax_witness :
    ([((0:ℝ),(0:ℝ)), ((1:ℝ),(0:ℝ)), ((1:ℝ),(1:ℝ)), ((0:ℝ),(1:ℝ))] : List V) ≠ [] ∧
    (project ((1:ℝ),(0:ℝ)) [] = none ∧
      ∃ mn mx, project ((1:ℝ),(0:ℝ))
          [((0:ℝ),(0:ℝ)), ((1:ℝ),(0:ℝ)), ((1:ℝ),(1:ℝ)), ((0:ℝ),(1:ℝ))] = some (mn, mx) ∧
        (∀ p ∈ ([((0:ℝ),(0:ℝ)), ((1:ℝ),(0:ℝ)), ((1:ℝ),(1:ℝ)), ((0:ℝ),(1:ℝ))] : List V),
          mn ≤ dot ((1:ℝ),(0:ℝ)) p ∧ dot ((1:ℝ),(0:ℝ)) p ≤ mx) ∧
        (∃ p ∈ ([((0:ℝ),(0:ℝ)), ((1:ℝ),(0:ℝ)), ((1:ℝ),(1:ℝ)), ((0:ℝ),(1:ℝ))] : List V),
          dot ((1:ℝ),(0:ℝ)) p = mn) ∧
        (∃ p ∈ ([((0:ℝ),(0:ℝ)), ((1:ℝ),(0:ℝ)), ((1:ℝ),(1:ℝ)), ((0:ℝ),(1:ℝ))] : List V),
          dot ((1:ℝ),(0:ℝ)) p = mx)) :=
  ⟨by simp, project_empty_fails_nonempty_minmax ((1:ℝ),(0:ℝ)) _ (by simp)⟩

/-! ### Minkowski sum -/

lemma minkowskiSum_length (A B : List V) :
    (minkowskiSum A B).length = A.length * B.length := by
  induction A with
  | nil => simp [minkowskiSum]
  | cons a A ih =>
    rw [minkowskiSum, List.flatMap_cons, List.length_append, List.length_map]
    rw [minkowskiSum] at ih
    rw [ih, List.length_cons, Nat.succ_mul, Nat.add_comm]

lemma minkowskiSum_get? (A B : List V) :
    ∀ (n m : ℕ) (hn : n < A.length) (hm : m < B.length),
      (minkowskiSum A B)[n * B.length + m]? = some (A.get ⟨n, hn⟩ + B.get ⟨m, hm⟩) := by
  induction A with
  | nil => intro n m hn _; exact absurd hn (Nat.not_lt_zero n)
  | cons a A ih =>
    intro n m hn hm
    rw [minkowskiSum, List.flatMap_cons]
    match n, hn with
    | 0, _ =>
      rw [Nat.zero_mul, Nat.zero_add]
      rw [List.getElem?_append_left (by rw [List.length_map]; exact hm)]
      rw [List.getElem?_map, List.getElem?_eq_getElem hm]
      rfl
    | n + 1, hn =>
      have hlen : (B.map fun q => a + q).length ≤ (n + 1) * B.length + m := by
        rw [List.length_map, Nat.succ_mul]
        omega
      rw [List.getElem?_append_right hlen]
      have hidx : (n + 1) * B.length + m - (B.map fun q => a + q).length
          = n * B.length + m := by
        rw [List.length_map, Nat.succ_mul]
        omega
      rw [hidx]
      exact ih n m (Nat.lt_of_succ_lt_succ hn) hm

lemma minkowskiSum_mem (A B : List V) (v : V) :
    v ∈ minkowskiSum A B ↔ ∃ p ∈ A, ∃ q ∈ B, v = p + q := by
  rw [minkowskiSum, List.mem_flatMap]
  constructor
  · rintro ⟨p, hp, hv⟩
    obtain ⟨q, hq, hpq⟩ := List.mem_map.mp hv
    exact ⟨p, hp, q, hq, hpq.symm⟩
  · rintro ⟨p, hp, q, hq, rfl⟩
    exact ⟨p, hp, List.mem_map.mpr ⟨q, hq, rfl⟩⟩

/-- C7.  The Minkowski sum of two nonempty polygons has exactly
`|A| * |B|` points, the point at index `n * |B| + m` is `A[n] + B[m]`, and
its points are exactly the pairwise sums. -/
theorem minkowskiSum_pairwise_sums (A B : List V) (_hA : A ≠ []) (_hB : B ≠ []) :
    (minkowskiSum A B).length = A.length * B.length ∧
    (∀ (n m : ℕ) (hn : n < A.length) (hm : m < B.length),
      (minkowskiSum A B)[n * B.length + m]? = some (A.get ⟨n, hn⟩ + B.get ⟨m, hm⟩)) ∧
    (∀ v : V, v ∈ minkowskiSum A B ↔ ∃ p ∈ A, ∃ q ∈ B, v = p + q) :=
  ⟨minkowskiSum_length A B, minkowskiSum_get? A B, minkowskiSum_mem A B⟩

/-- Witness for C7 on a one point and a two point polygon. -/
theorem minkowskiSum_pairwise_sums_witness :
    ([((1:ℝ),(2:ℝ))] : List V) ≠ [] ∧ ([((3:ℝ),(4:ℝ)), ((5:ℝ),(6:ℝ))] : List V) ≠ [] ∧
    (minkowskiSum [((1:ℝ),(2:ℝ))] [((3:ℝ),(4:ℝ)), ((5:ℝ),(6:ℝ))]).length = 1 * 2 ∧
    (minkowskiSum [((1:ℝ),(2:ℝ))] [((3:ℝ),(4:ℝ)), ((5:ℝ),(6:ℝ))])[0 * 2 + 1]? =
      some ((6:ℝ),(8:ℝ)) := by
  obtain ⟨h1, h2, h3⟩ := minkowskiSum_pairwise_sums
    [((1:ℝ),(2:ℝ))] [((3:ℝ),(4:ℝ)), ((5:ℝ),(6:ℝ))] (by simp) (by simp)
  refine ⟨by simp, by simp, by simpa using h1, ?_⟩
  have := h2 0 1 (by simp) (by simp)
  simp only [List.length_cons, List.length_nil] at this ⊢
  rw [this]
  norm_num [List.get, Prod.mk_add_mk]

/-! ### Mirror -/

lemma mirror_guard_dead (d : V) : ¬ ([d.1, d.2] = ([0, 0, 0] : List ℝ)) := by
  intro h
  have := congrArg List.length h
  simp at this

/-- C4 (code evaluation).  `mirror` with the zero 2D axis direction is not
the documented no-op: the zero guard of the source compares the direction
with the three component zero `[0,0,0]`, which a two component vector never
equals, so control reaches the division by the zero norm of the direction
and the point sequence is destroyed (NaN in the float implementation,
modelled as the failure `none`). -/
theorem mirror_zero_direction_not_noop (pts : List V) (pa : V) :
    mirror pts pa ((0:ℝ), (0:ℝ)) = none := by
  rw [mirror, if_neg (mirror_guard_dead _), if_pos]
  exact (nrm_eq_zero_iff _).mpr rfl

/-- C5.  For a nonzero axis direction, `mirror` replaces every vertex `v` by
`point_on_axis + R (v - point_on_axis)` where `R = 2 d dT - I` is the
householder matrix of the normalised direction `d`. -/
theorem mirror_householder_reflection (pts : List V) (pa d : V)
    (hd : d ≠ ((0:ℝ), (0:ℝ))) :
    mirror pts pa d = some (pts.map fun v =>
      pa + mulVec (householder ((nrm d)⁻¹ • d)) (v - pa)) := by
  have hn : ¬ nrm d = 0 := fun h => hd ((nrm_eq_zero_iff d).mp h)
  rw [mirror, if_neg (mirror_guard_dead _), if_neg hn]
  have hfun : (fun p => rowMul (p - pa) (householder ((nrm d)⁻¹ • d)) + pa)
      = fun v => pa + mulVec (householder ((nrm d)⁻¹ • d)) (v - pa) := by
    funext p
    apply Prod.ext
    · simp only [rowMul, mulVec, householder, m2sub, m2smul, outer, ident2,
        Prod.fst_add, Prod.snd_add]
      ring
    · simp only [rowMul, mulVec, householder, m2sub, m2smul, outer, ident2,
        Prod.fst_add, Prod.snd_add]
      ring
  rw [hfun]

lemma nrm_01 : nrm ((0:ℝ), (1:ℝ)) = 1 := nrm_eval 0 1 1 (by norm_num) (by norm_num)

/-- Shared evaluation: mirroring the single point polygon [(1,0)] across
the axis through the origin with direction (0,1) gives [(-1,0)]. -/
lemma mirror_single_point_eval :
    mirror [((1:ℝ),(0:ℝ))] ((0:ℝ),(0:ℝ)) ((0:ℝ),(1:ℝ)) = some [((-1:ℝ),(0:ℝ))] := by
  have hn : ¬ nrm ((0:ℝ), (1:ℝ)) = 0 := by rw [nrm_01]; norm_num
  rw [mirror, if_neg (mirror_guard_dead _), if_neg hn, nrm_01]
  simp only [List.map_cons, List.map_nil, Option.some.injEq, List.cons.injEq, and_true]
  apply Prod.ext
  · simp [rowMul, householder, m2sub, m2smul, outer, ident2, Prod.smul_mk,
      Prod.mk_sub_mk, smul_eq_mul]
  · simp [rowMul, householder, m2sub, m2smul, outer, ident2, Prod.smul_mk,
      Prod.mk_sub_mk, smul_eq_mul]

/-- Witness for C5 at the single point polygon of the specification. -/
theorem mirror_householder_reflection_witness :
    ((0:ℝ),(1:ℝ)) ≠ ((0:ℝ),(0:ℝ)) ∧
    mirror [((1:ℝ),(0:ℝ))] ((0:ℝ),(0:ℝ)) ((0:ℝ),(1:ℝ)) = some [((-1:ℝ),(0:ℝ))] := by
  refine ⟨by simp, ?_⟩
  rw [mirror_householder_reflection [((1:ℝ),(0:ℝ))] ((0:ℝ),(0:ℝ)) ((0:ℝ),(1:ℝ)) (by simp)]
  rw [nrm_01]
  simp only [List.map_cons, List.map_nil, Option.some.injEq, List.cons.injEq, and_true]
  apply Prod.ext
  · simp [mulVec, householder, m2sub, m2smul, outer, ident2, Prod.smul_mk,
      Prod.mk_sub_mk, smul_eq_mul, Prod.fst_add, Prod.snd_add]
  · simp [mulVec, householder, m2sub, m2smul, outer, ident2, Prod.smul_mk,
      Prod.mk_sub_mk, smul_eq_mul, Prod.fst_add, Prod.snd_add]

/-- C9.  The binary operations do not touch the point sequences of their
operands (state passing form returns them unchanged), while `mirror` does
replace the point sequence of its receiver with a different one. -/
theorem binary_ops_pure_mirror_mutates (A B : List V) :
    (intersectsPolygonS A B).1 = (A, B) ∧
    (minkowskiSumS A B).1 = (A, B) ∧
    mirror [((1:ℝ),(0:ℝ))] ((0:ℝ),(0:ℝ)) ((0:ℝ),(1:ℝ)) ≠ some [((1:ℝ),(0:ℝ))] := by
  refine ⟨rfl, rfl, ?_⟩
  rw [mirror_single_point_eval]
  norm_num [Prod.ext_iff]

/-! ### Concrete axis and projection evaluations -/

lemma axA1 : normalizeAxis ((0:ℝ),(1:ℝ)) ((0:ℝ),(0:ℝ)) = some ((-1:ℝ), (0:ℝ)) := by
  rw [normalizeAxis_eval 0 1 0 0 1 one_pos (by norm_num)]; norm_num

lemma axA2 : normalizeAxis ((0:ℝ),(0:ℝ)) ((1:ℝ),(0:ℝ)) = some ((0:ℝ), (-1:ℝ)) := by
  rw [normalizeAxis_eval 0 0 1 0 1 one_pos (by norm_num)]; norm_num

lemma axA3 : normalizeAxis ((1:ℝ),(0:ℝ)) ((1:ℝ),(1:ℝ)) = some ((1:ℝ), (0:ℝ)) := by
  rw [normalizeAxis_eval 1 0 1 1 1 one_pos (by norm_num)]; norm_num

lemma axA4 : normalizeAxis ((1:ℝ),(1:ℝ)) ((0:ℝ),(1:ℝ)) = some ((0:ℝ), (1:ℝ)) := by
  rw [normalizeAxis_eval 1 1 0 1 1 one_pos (by norm_num)]; norm_num

lemma ax05_1 : normalizeAxis ((1/2:ℝ),(1:ℝ)) ((1/2:ℝ),(0:ℝ)) = some ((-1:ℝ), (0:ℝ)) := by
  rw [normalizeAxis_eval (1/2) 1 (1/2) 0 1 one_pos (by norm_num)]; norm_num

lemma ax05_2 : normalizeAxis ((1/2:ℝ),(0:ℝ)) ((3/2:ℝ),(0:ℝ)) = some ((0:ℝ), (-1:ℝ)) := by
  rw [normalizeAxis_eval (1/2) 0 (3/2) 0 1 one_pos (by norm_num)]; norm_num

lemma ax05_3 : normalizeAxis ((3/2:ℝ),(0:ℝ)) ((3/2:ℝ),(1:ℝ)) = some ((1:ℝ), (0:ℝ)) := by
  rw [normalizeAxis_eval (3/2) 0 (3/2) 1 1 one_pos (by norm_num)]; norm_num

lemma ax05_4 : normalizeAxis ((3/2:ℝ),(1:ℝ)) ((1/2:ℝ),(1:ℝ)) = some ((0:ℝ), (1:ℝ)) := by
  rw [normalizeAxis_eval (3/2) 1 (1/2) 1 1 one_pos (by norm_num)]; norm_num

lemma ax1_1 : normalizeAxis ((1:ℝ),(1:ℝ)) ((1:ℝ),(0:ℝ)) = some ((-1:ℝ), (0:ℝ)) := by
  rw [normalizeAxis_eval 1 1 1 0 1 one_pos (by norm_num)]; norm_num

lemma ax1_2 : normalizeAxis ((1:ℝ),(0:ℝ)) ((2:ℝ),(0:ℝ)) = some ((0:ℝ), (-1:ℝ)) := by
  rw [normalizeAxis_eval 1 0 2 0 1 one_pos (by norm_num)]; norm_num

lemma ax1_3 : normalizeAxis ((2:ℝ),(0:ℝ)) ((2:ℝ),(1:ℝ)) = some ((1:ℝ), (0:ℝ)) := by
  rw [normalizeAxis_eval 2 0 2 1 1 one_pos (by norm_num)]; norm_num

lemma ax1_4 : normalizeAxis ((2:ℝ),(1:ℝ)) ((1:ℝ),(1:ℝ)) = some ((0:ℝ), (1:ℝ)) := by
  rw [normalizeAxis_eval 2 1 1 1 1 one_pos (by norm_num)]; norm_num

lemma ax2_1 : normalizeAxis ((2:ℝ),(1:ℝ)) ((2:ℝ),(0:ℝ)) = some ((-1:ℝ), (0:ℝ)) := by
  rw [normalizeAxis_eval 2 1 2 0 1 one_pos (by norm_num)]; norm_num

lemma axBig1 : normalizeAxis ((0:ℝ),(10000000:ℝ)) ((0:ℝ),(0:ℝ)) = some ((-1:ℝ), (0:ℝ)) := by
  rw [normalizeAxis_eval 0 10000000 0 0 10000000 (by norm_num) (by norm_num)]; norm_num

lemma axBig2 : normalizeAxis ((0:ℝ),(0:ℝ)) ((10000000:ℝ),(0:ℝ)) = some ((0:ℝ), (-1:ℝ)) := by
  rw [normalizeAxis_eval 0 0 10000000 0 10000000 (by norm_num) (by norm_num)]; norm_num

lemma axBig3 : normalizeAxis ((10000000:ℝ),(0:ℝ)) ((10000000:ℝ),(10000000:ℝ)) =
    some ((1:ℝ), (0:ℝ)) := by
  rw [normalizeAxis_eval 10000000 0 10000000 10000000 10000000 (by norm_num) (by norm_num)]
  norm_num

lemma axBig4 : normalizeAxis ((10000000:ℝ),(10000000:ℝ)) ((0:ℝ),(10000000:ℝ)) =
    some ((0:ℝ), (1:ℝ)) := by
  rw [normalizeAxis_eval 10000000 10000000 0 10000000 10000000 (by norm_num) (by norm_num)]
  norm_num

lemma pA_nx : project ((-1:ℝ),(0:ℝ)) sqA = some ((-1:ℝ), (0:ℝ)) := by
  simp only [project, sqA, List.foldl_cons, List.foldl_nil, dot]
  norm_num [min_def, max_def]

lemma pA_ny : project ((0:ℝ),(-1:ℝ)) sqA = some ((-1:ℝ), (0:ℝ)) := by
  simp only [project, sqA, List.foldl_cons, List.foldl_nil, dot]
  norm_num [min_def, max_def]

lemma pA_px : project ((1:ℝ),(0:ℝ)) sqA = some ((0:ℝ), (1:ℝ)) := by
  simp only [project, sqA, List.foldl_cons, List.foldl_nil, dot]
  norm_num [min_def, max_def]

lemma pA_py : project ((0:ℝ),(1:ℝ)) sqA = some ((0:ℝ), (1:ℝ)) := by
  simp only [project, sqA, List.foldl_cons, List.foldl_nil, dot]
  norm_num [min_def, max_def]

lemma p05_nx : project ((-1:ℝ),(0:ℝ)) sq05 = some ((-3/2:ℝ), (-1/2:ℝ)) := by
  simp only [project, sq05, List.foldl_cons, List.foldl_nil, dot]
  norm_num [min_def, max_def]

lemma p05_ny : project ((0:ℝ),(-1:ℝ)) sq05 = some ((-1:ℝ), (0:ℝ)) := by
  simp only [project, sq05, List.foldl_cons, List.foldl_nil, dot]
  norm_num [min_def, max_def]

lemma p05_px : project ((1:ℝ),(0:ℝ)) sq05 = some ((1/2:ℝ), (3/2:ℝ)) := by
  simp only [project, sq05, List.foldl_cons, List.foldl_nil, dot]
  norm_num [min_def, max_def]

lemma p05_py : project ((0:ℝ),(1:ℝ)) sq05 = some ((0:ℝ), (1:ℝ)) := by
  simp only [project, sq05, List.foldl_cons, List.foldl_nil, dot]
  norm_num [min_def, max_def]

lemma p1_nx : project ((-1:ℝ),(0:ℝ)) sq1 = some ((-2:ℝ), (-1:ℝ)) := by
  simp only [project, sq1, List.foldl_cons, List.foldl_nil, dot]
  norm_num [min_def, max_def]

lemma p1_ny : project ((0:ℝ),(-1:ℝ)) sq1 = some ((-1:ℝ), (0:ℝ)) := by
  simp only [project, sq1, List.foldl_cons, List.foldl_nil, dot]
  norm_num [min_def, max_def]

lemma p1_px : project ((1:ℝ),(0:ℝ)) sq1 = some ((1:ℝ), (2:ℝ)) := by
  simp only [project, sq1, List.foldl_cons, List.foldl_nil, dot]
  norm_num [min_def, max_def]

lemma p1_py : project ((0:ℝ),(1:ℝ)) sq1 = some ((0:ℝ), (1:ℝ)) := by
  simp only [project, sq1, List.foldl_cons, List.foldl_nil, dot]
  norm_num [min_def, max_def]

lemma p2_nx : project ((-1:ℝ),(0:ℝ)) sq2 = some ((-3:ℝ), (-2:ℝ)) := by
  simp only [project, sq2, List.foldl_cons, List.foldl_nil, dot]
  norm_num [min_def, max_def]

lemma p3_nx : project ((-1:ℝ),(0:ℝ)) sq3 = some ((-4:ℝ), (-3:ℝ)) := by
  simp only [project, sq3, List.foldl_cons, List.foldl_nil, dot]
  norm_num [min_def, max_def]

lemma pdup_nx : project ((-1:ℝ),(0:ℝ)) dupSq = some ((-1:ℝ), (0:ℝ)) := by
  simp only [project, dupSq, List.foldl_cons, List.foldl_nil, dot]
  norm_num [min_def, max_def]

lemma pBig_nx : project ((-1:ℝ),(0:ℝ)) bigSq = some ((-10000000:ℝ), (0:ℝ)) := by
  simp only [project, bigSq, List.foldl_cons, List.foldl_nil, dot]
  norm_num [min_def, max_def]

lemma pBig_ny : project ((0:ℝ),(-1:ℝ)) bigSq = some ((-10000000:ℝ), (0:ℝ)) := by
  simp only [project, bigSq, List.foldl_cons, List.foldl_nil, dot]
  norm_num [min_def, max_def]

lemma pBig_px : project ((1:ℝ),(0:ℝ)) bigSq = some ((0:ℝ), (10000000:ℝ)) := by
  simp only [project, bigSq, List.foldl_cons, List.foldl_nil, dot]
  norm_num [min_def, max_def]

lemma pBig_py : project ((0:ℝ),(1:ℝ)) bigSq = some ((0:ℝ), (10000000:ℝ)) := by
  simp only [project, bigSq, List.foldl_cons, List.foldl_nil, dot]
  norm_num [min_def, max_def]

/-! ### More loop helpers -/

lemma satFold_append (A B : List V) (l1 l2 : List (V × V)) (st : ℝ × Option V) :
    satFold A B (l1 ++ l2) st = satFold A B l2 (satFold A B l1 st) := by
  rw [satFold, satFold, satFold, List.foldl_append]

lemma good_of_data {A B : List V} {e : V × V} {nl : V} {pa pb : ℝ × ℝ}
    (hd : axisData A B e = some (nl, pa, pb)) (h1 : pa.1 ≤ pb.2) (h2 : pb.1 ≤ pa.2) :
    Good A B e := ⟨nl, pa, pb, hd, h1, h2⟩

lemma satLoop_keep (r : ℝ) {A B : List V} {e : V × V} {es : List (V × V)}
    {ret : Option V} {nl : V} {a1 a2 b1 b2 : ℝ}
    (hn : normalizeAxis e.1 e.2 = some nl)
    (ha : project nl A = some (a1, a2)) (hb : project nl B = some (b1, b2))
    (h1 : a1 ≤ b2) (h2 : b1 ≤ a2) (h3 : ¬ (min a2 b2 - max a1 b1 < r)) :
    satLoop A B (e :: es) r ret = satLoop A B es r ret := by
  apply satLoop_cons_running
  rw [satStep_data A B r ret e nl a1 a2 b1 b2 hn ha hb h1 h2]
  exact if_neg h3

lemma exists_first_split {α : Type} (P : α → Prop) :
    ∀ (l : List α), (∃ x ∈ l, P x) →
      ∃ l1 x l2, l = l1 ++ x :: l2 ∧ P x ∧ ∀ y ∈ l1, ¬ P y := by
  intro l
  induction l with
  | nil =>
    rintro ⟨x, hx, _⟩
    cases hx
  | cons a l ih =>
    intro h
    by_cases ha : P a
    · exact ⟨[], a, l, rfl, ha, by simp⟩
    · obtain ⟨x, hx, hP⟩ := h
      rcases List.mem_cons.mp hx with rfl | hx
      · exact absurd hP ha
      obtain ⟨l1, y, l2, heq, hPy, hnone⟩ := ih ⟨x, hx, hP⟩
      refine ⟨a :: l1, y, l2, by rw [heq]; rfl, hPy, ?_⟩
      intro z hz
      rcases List.mem_cons.mp hz with rfl | hz
      · exact ha
      · exact hnone z hz

/-! ### The SAT claims -/

/-- C2.  If the loop reaches a tested axis on which the two projected
ranges do not overlap, `intersectsPolygon` stops in the separated state and
returns None, whatever axes would follow (the tail `es2` is arbitrary and
untouched). -/
theorem separating_axis_early_none (A B : List V) (es1 es2 : List (V × V))
    (e : V × V) (nl : V) (a1 a2 b1 b2 r : ℝ) (ret : Option V)
    (hsplit : edges A ++ edges B = es1 ++ e :: es2)
    (hpre : satLoop A B es1 10000000 Option.none = SatState.running r ret)
    (hn : normalizeAxis e.1 e.2 = some nl)
    (ha : project nl A = some (a1, a2))
    (hb : project nl B = some (b1, b2))
    (hsep : a1 > b2 ∨ b1 > a2) :
    satLoop A B (edges A ++ edges B) 10000000 Option.none = SatState.separated ∧
    intersectsPolygon A B = SatOutcome.none := by
  have hloop : satLoop A B (edges A ++ edges B) 10000000 Option.none
      = SatState.separated := by
    rw [hsplit, satLoop_append, hpre]
    show satLoop A B (e :: es2) r ret = SatState.separated
    rw [satLoop, satStep_sep A B r ret e nl a1 a2 b1 b2 hn ha hb hsep]
  exact ⟨hloop, by rw [intersectsPolygon, hloop]⟩

/-- C3 (amended).  A zero length edge makes the loop fail with the
DegenerateAxis error as soon as its axis is reached, that is, provided the
axes tested before it all kept the loop running. -/
theorem degenerate_edge_detected (A B : List V) (es1 es2 : List (V × V))
    (e : V × V) (r : ℝ) (ret : Option V)
    (hsplit : edges A ++ edges B = es1 ++ e :: es2)
    (hpre : satLoop A B es1 10000000 Option.none = SatState.running r ret)
    (hdeg : e.1 = e.2) :
    intersectsPolygon A B = SatOutcome.error := by
  have hloop : satLoop A B (edges A ++ edges B) 10000000 Option.none
      = SatState.degenerate := by
    rw [hsplit, satLoop_append, hpre]
    show satLoop A B (e :: es2) r ret = SatState.degenerate
    rw [satLoop, satStep_deg A B r ret e (normalizeAxis_deg e.1 e.2 hdeg)]
  rw [intersectsPolygon, hloop]

/-- C1 (amended).  When every tested axis keeps the loop running and the
smallest overlap `m` is below the sentinel 10000000.0, the function returns
the translation vector of the first axis attaining `m`, signed `-m * axis`
when the self minimum projection is below the other minimum projection on
that axis and `+m * axis` otherwise. -/
theorem intersects_mtv_smallest_overlap (A B : List V) (es1 es2 : List (V × V))
    (e0 : V × V) (m : ℝ)
    (hsplit : edges A ++ edges B = es1 ++ e0 :: es2)
    (hgood : ∀ e ∈ edges A ++ edges B, Good A B e)
    (hm : overlapSize A B e0 = m)
    (hmin : ∀ e ∈ edges A ++ edges B, m ≤ overlapSize A B e)
    (hfirst : ∀ e ∈ es1, m < overlapSize A B e)
    (hcap : m < 10000000) :
    intersectsPolygon A B = SatOutcome.mtv
      (if aMinOf A B e0 < bMinOf A B e0 then (-m) • normalOf A B e0
        else m • normalOf A B e0) := by
  rw [intersectsPolygon, satLoop_good_run A B _ hgood 10000000 Option.none,
    hsplit, satFold_append]
  rcases hst : satFold A B es1 (10000000, Option.none) with ⟨r1, ret1⟩
  have hr1 : m < r1 := by
    have h := satFold_min_lt A B m es1 10000000 Option.none hfirst hcap
    rw [hst] at h
    exact h
  rw [satFold_cons, if_pos (show overlapSize A B e0 < r1 by rw [hm]; exact hr1), hm]
  have hstab : ∀ e ∈ es2, m ≤ overlapSize A B e := by
    intro e he
    apply hmin
    rw [hsplit]
    exact List.mem_append_right _ (List.mem_cons_of_mem _ he)
  rw [satFold_stable A B es2 m (some (mtvOf A B e0)) hstab]
  show SatOutcome.mtv (mtvOf A B e0) = _
  rw [mtvOf, hm]

/-- C10.  When every tested axis keeps the loop running, overlaps are all
nonnegative and some tested axis has overlap exactly zero (ranges touch),
the polygons are reported as intersecting with the zero translation vector,
not as separated. -/
theorem touching_projections_zero_mtv (A B : List V)
    (hgood : ∀ e ∈ edges A ++ edges B, Good A B e)
    (hzero : ∃ e ∈ edges A ++ edges B, overlapSize A B e = 0)
    (hnn : ∀ e ∈ edges A ++ edges B, 0 ≤ overlapSize A B e) :
    intersectsPolygon A B = SatOutcome.mtv ((0:ℝ), (0:ℝ)) := by
  obtain ⟨es1, e0, es2, hsplit, hz, hfirst0⟩ :=
    exists_first_split (fun e => overlapSize A B e = 0) (edges A ++ edges B) hzero
  have hfirst : ∀ e ∈ es1, 0 < overlapSize A B e := by
    intro e he
    have hmem : e ∈ edges A ++ edges B := by
      rw [hsplit]
      exact List.mem_append_left _ he
    exact lt_of_le_of_ne (hnn e hmem) (Ne.symm (hfirst0 e he))
  rw [intersectsPolygon, satLoop_good_run A B _ hgood 10000000 Option.none,
    hsplit, satFold_append]
  rcases hst : satFold A B es1 (10000000, Option.none) with ⟨r1, ret1⟩
  have hr1 : (0:ℝ) < r1 := by
    have h := satFold_min_lt A B 0 es1 10000000 Option.none hfirst (by norm_num)
    rw [hst] at h
    exact h
  rw [satFold_cons, if_pos (show overlapSize A B e0 < r1 by rw [hz]; exact hr1), hz]
  have hstab : ∀ e ∈ es2, (0:ℝ) ≤ overlapSize A B e := by
    intro e he
    apply hnn
    rw [hsplit]
    exact List.mem_append_right _ (List.mem_cons_of_mem _ he)
  rw [satFold_stable A B es2 0 (some (mtvOf A B e0)) hstab]
  show SatOutcome.mtv (mtvOf A B e0) = _
  have hv : mtvOf A B e0 = ((0:ℝ), (0:ℝ)) := by
    rw [mtvOf, hz]
    split_ifs <;> simp [neg_zero, zero_smul, Prod.mk_zero_zero]
  rw [hv]

/-! ### Axis data of the concrete square pairs -/

lemma dA05_1 : axisData sqA sq05 (((0:ℝ),(1:ℝ)), ((0:ℝ),(0:ℝ))) =
    some (((-1:ℝ),(0:ℝ)), ((-1:ℝ),(0:ℝ)), ((-3/2:ℝ),(-1/2:ℝ))) :=
  axisData_eval _ _ _ _ _ _ axA1 pA_nx p05_nx

lemma dA05_2 : axisData sqA sq05 (((0:ℝ),(0:ℝ)), ((1:ℝ),(0:ℝ))) =
    some (((0:ℝ),(-1:ℝ)), ((-1:ℝ),(0:ℝ)), ((-1:ℝ),(0:ℝ))) :=
  axisData_eval _ _ _ _ _ _ axA2 pA_ny p05_ny

lemma dA05_3 : axisData sqA sq05 (((1:ℝ),(0:ℝ)), ((1:ℝ),(1:ℝ))) =
    some (((1:ℝ),(0:ℝ)), ((0:ℝ),(1:ℝ)), ((1/2:ℝ),(3/2:ℝ))) :=
  axisData_eval _ _ _ _ _ _ axA3 pA_px p05_px

lemma dA05_4 : axisData sqA sq05 (((1:ℝ),(1:ℝ)), ((0:ℝ),(1:ℝ))) =
    some (((0:ℝ),(1:ℝ)), ((0:ℝ),(1:ℝ)), ((0:ℝ),(1:ℝ))) :=
  axisData_eval _ _ _ _ _ _ axA4 pA_py p05_py

lemma dA05_5 : axisData sqA sq05 (((1/2:ℝ),(1:ℝ)), ((1/2:ℝ),(0:ℝ))) =
    some (((-1:ℝ),(0:ℝ)), ((-1:ℝ),(0:ℝ)), ((-3/2:ℝ),(-1/2:ℝ))) :=
  axisData_eval _ _ _ _ _ _ ax05_1 pA_nx p05_nx

lemma dA05_6 : axisData sqA sq05 (((1/2:ℝ),(0:ℝ)), ((3/2:ℝ),(0:ℝ))) =
    some (((0:ℝ),(-1:ℝ)), ((-1:ℝ),(0:ℝ)), ((-1:ℝ),(0:ℝ))) :=
  axisData_eval _ _ _ _ _ _ ax05_2 pA_ny p05_ny

lemma dA05_7 : axisData sqA sq05 (((3/2:ℝ),(0:ℝ)), ((3/2:ℝ),(1:ℝ))) =
    some (((1:ℝ),(0:ℝ)), ((0:ℝ),(1:ℝ)), ((1/2:ℝ),(3/2:ℝ))) :=
  axisData_eval _ _ _ _ _ _ ax05_3 pA_px p05_px

lemma dA05_8 : axisData sqA sq05 (((3/2:ℝ),(1:ℝ)), ((1/2:ℝ),(1:ℝ))) =
    some (((0:ℝ),(1:ℝ)), ((0:ℝ),(1:ℝ)), ((0:ℝ),(1:ℝ))) :=
  axisData_eval _ _ _ _ _ _ ax05_4 pA_py p05_py

lemma dA1_1 : axisData sqA sq1 (((0:ℝ),(1:ℝ)), ((0:ℝ),(0:ℝ))) =
    some (((-1:ℝ),(0:ℝ)), ((-1:ℝ),(0:ℝ)), ((-2:ℝ),(-1:ℝ))) :=
  axisData_eval _ _ _ _ _ _ axA1 pA_nx p1_nx

lemma dA1_2 : axisData sqA sq1 (((0:ℝ),(0:ℝ)), ((1:ℝ),(0:ℝ))) =
    some (((0:ℝ),(-1:ℝ)), ((-1:ℝ),(0:ℝ)), ((-1:ℝ),(0:ℝ))) :=
  axisData_eval _ _ _ _ _ _ axA2 pA_ny p1_ny

lemma dA1_3 : axisData sqA sq1 (((1:ℝ),(0:ℝ)), ((1:ℝ),(1:ℝ))) =
    some (((1:ℝ),(0:ℝ)), ((0:ℝ),(1:ℝ)), ((1:ℝ),(2:ℝ))) :=
  axisData_eval _ _ _ _ _ _ axA3 pA_px p1_px

lemma dA1_4 : axisData sqA sq1 (((1:ℝ),(1:ℝ)), ((0:ℝ),(1:ℝ))) =
    some (((0:ℝ),(1:ℝ)), ((0:ℝ),(1:ℝ)), ((0:ℝ),(1:ℝ))) :=
  axisData_eval _ _ _ _ _ _ axA4 pA_py p1_py

lemma dA1_5 : axisData sqA sq1 (((1:ℝ),(1:ℝ)), ((1:ℝ),(0:ℝ))) =
    some (((-1:ℝ),(0:ℝ)), ((-1:ℝ),(0:ℝ)), ((-2:ℝ),(-1:ℝ))) :=
  axisData_eval _ _ _ _ _ _ ax1_1 pA_nx p1_nx

lemma dA1_6 : axisData sqA sq1 (((1:ℝ),(0:ℝ)), ((2:ℝ),(0:ℝ))) =
    some (((0:ℝ),(-1:ℝ)), ((-1:ℝ),(0:ℝ)), ((-1:ℝ),(0:ℝ))) :=
  axisData_eval _ _ _ _ _ _ ax1_2 pA_ny p1_ny

lemma dA1_7 : axisData sqA sq1 (((2:ℝ),(0:ℝ)), ((2:ℝ),(1:ℝ))) =
    some (((1:ℝ),(0:ℝ)), ((0:ℝ),(1:ℝ)), ((1:ℝ),(2:ℝ))) :=
  axisData_eval _ _ _ _ _ _ ax1_3 pA_px p1_px

lemma dA1_8 : axisData sqA sq1 (((2:ℝ),(1:ℝ)), ((1:ℝ),(1:ℝ))) =
    some (((0:ℝ),(1:ℝ)), ((0:ℝ),(1:ℝ)), ((0:ℝ),(1:ℝ))) :=
  axisData_eval _ _ _ _ _ _ ax1_4 pA_py p1_py

lemma dBig1 : axisData bigSq bigSq (((0:ℝ),(10000000:ℝ)), ((0:ℝ),(0:ℝ))) =
    some (((-1:ℝ),(0:ℝ)), ((-10000000:ℝ),(0:ℝ)), ((-10000000:ℝ),(0:ℝ))) :=
  axisData_eval _ _ _ _ _ _ axBig1 pBig_nx pBig_nx

lemma dBig2 : axisData bigSq bigSq (((0:ℝ),(0:ℝ)), ((10000000:ℝ),(0:ℝ))) =
    some (((0:ℝ),(-1:ℝ)), ((-10000000:ℝ),(0:ℝ)), ((-10000000:ℝ),(0:ℝ))) :=
  axisData_eval _ _ _ _ _ _ axBig2 pBig_ny pBig_ny

lemma dBig3 : axisData bigSq bigSq (((10000000:ℝ),(0:ℝ)), ((10000000:ℝ),(10000000:ℝ))) =
    some (((1:ℝ),(0:ℝ)), ((0:ℝ),(10000000:ℝ)), ((0:ℝ),(10000000:ℝ))) :=
  axisData_eval _ _ _ _ _ _ axBig3 pBig_px pBig_px

lemma dBig4 : axisData bigSq bigSq (((10000000:ℝ),(10000000:ℝ)), ((0:ℝ),(10000000:ℝ))) =
    some (((0:ℝ),(1:ℝ)), ((0:ℝ),(10000000:ℝ)), ((0:ℝ),(10000000:ℝ))) :=
  axisData_eval _ _ _ _ _ _ axBig4 pBig_py pBig_py

/-! ### Witnesses and counterexamples of the SAT claims -/

lemma edges_A05 : edges sqA ++ edges sq05 =
    [(((0:ℝ),(1:ℝ)), ((0:ℝ),(0:ℝ))), (((0:ℝ),(0:ℝ)), ((1:ℝ),(0:ℝ))),
     (((1:ℝ),(0:ℝ)), ((1:ℝ),(1:ℝ))), (((1:ℝ),(1:ℝ)), ((0:ℝ),(1:ℝ))),
     (((1/2:ℝ),(1:ℝ)), ((1/2:ℝ),(0:ℝ))), (((1/2:ℝ),(0:ℝ)), ((3/2:ℝ),(0:ℝ))),
     (((3/2:ℝ),(0:ℝ)), ((3/2:ℝ),(1:ℝ))), (((3/2:ℝ),(1:ℝ)), ((1/2:ℝ),(1:ℝ)))] := rfl

lemma good_A05 : ∀ e ∈ edges sqA ++ edges sq05, Good sqA sq05 e := by
  intro e he
  rw [edges_A05] at he
  fin_cases he
  · exact good_of_data dA05_1 (by norm_num) (by norm_num)
  · exact good_of_data dA05_2 (by norm_num) (by norm_num)
  · exact good_of_data dA05_3 (by norm_num) (by norm_num)
  · exact good_of_data dA05_4 (by norm_num) (by norm_num)
  · exact good_of_data dA05_5 (by norm_num) (by norm_num)
  · exact good_of_data dA05_6 (by norm_num) (by norm_num)
  · exact good_of_data dA05_7 (by norm_num) (by norm_num)
  · exact good_of_data dA05_8 (by norm_num) (by norm_num)

lemma min_A05 : ∀ e ∈ edges sqA ++ edges sq05, (1/2:ℝ) ≤ overlapSize sqA sq05 e := by
  intro e he
  rw [edges_A05] at he
  fin_cases he
  · rw [overlapSize_eval _ _ _ _ _ _ dA05_1]; norm_num
  · rw [overlapSize_eval _ _ _ _ _ _ dA05_2]; norm_num
  · rw [overlapSize_eval _ _ _ _ _ _ dA05_3]; norm_num
  · rw [overlapSize_eval _ _ _ _ _ _ dA05_4]; norm_num
  · rw [overlapSize_eval _ _ _ _ _ _ dA05_5]; norm_num
  · rw [overlapSize_eval _ _ _ _ _ _ dA05_6]; norm_num
  · rw [overlapSize_eval _ _ _ _ _ _ dA05_7]; norm_num
  · rw [overlapSize_eval _ _ _ _ _ _ dA05_8]; norm_num

/-- Witness for C1 on the two unit squares of the specification, shifted by
(1/2, 0): the reported translation vector is (-1/2, 0), of magnitude 1/2
and aligned with the x axis. -/
theorem intersects_mtv_smallest_overlap_witness :
    ((1/2:ℝ) < 10000000) ∧
    intersectsPolygon sqA sq05 = SatOutcome.mtv ((-(1/2):ℝ), (0:ℝ)) := by
  refine ⟨by norm_num, ?_⟩
  have h := intersects_mtv_smallest_overlap sqA sq05 []
    [(((0:ℝ),(0:ℝ)), ((1:ℝ),(0:ℝ))),
     (((1:ℝ),(0:ℝ)), ((1:ℝ),(1:ℝ))), (((1:ℝ),(1:ℝ)), ((0:ℝ),(1:ℝ))),
     (((1/2:ℝ),(1:ℝ)), ((1/2:ℝ),(0:ℝ))), (((1/2:ℝ),(0:ℝ)), ((3/2:ℝ),(0:ℝ))),
     (((3/2:ℝ),(0:ℝ)), ((3/2:ℝ),(1:ℝ))), (((3/2:ℝ),(1:ℝ)), ((1/2:ℝ),(1:ℝ)))]
    (((0:ℝ),(1:ℝ)), ((0:ℝ),(0:ℝ))) (1/2)
    edges_A05 good_A05
    (by rw [overlapSize_eval _ _ _ _ _ _ dA05_1]; norm_num)
    min_A05
    (by intro e he; cases he)
    (by norm_num)
  rw [h, aMinOf_eval _ _ _ _ _ _ dA05_1, bMinOf_eval _ _ _ _ _ _ dA05_1,
    normalOf_eval _ _ _ _ _ _ dA05_1]
  rw [if_neg (by norm_num)]
  norm_num [Prod.smul_mk, smul_eq_mul]

/-- Counterexample to C1 as stated: the square of side 10000000 overlaps
itself on every tested axis (it is compared with itself), yet the function
returns None, because every overlap equals the initial sentinel size and
the strict comparison never stores a vector. -/
theorem intersects_sentinel_overlap_cex :
    NoSeparatingAxis bigSq bigSq ∧
    intersectsPolygon bigSq bigSq = SatOutcome.none := by
  have hE : edges bigSq ++ edges bigSq =
      [(((0:ℝ),(10000000:ℝ)), ((0:ℝ),(0:ℝ))), (((0:ℝ),(0:ℝ)), ((10000000:ℝ),(0:ℝ))),
       (((10000000:ℝ),(0:ℝ)), ((10000000:ℝ),(10000000:ℝ))),
       (((10000000:ℝ),(10000000:ℝ)), ((0:ℝ),(10000000:ℝ))),
       (((0:ℝ),(10000000:ℝ)), ((0:ℝ),(0:ℝ))), (((0:ℝ),(0:ℝ)), ((10000000:ℝ),(0:ℝ))),
       (((10000000:ℝ),(0:ℝ)), ((10000000:ℝ),(10000000:ℝ))),
       (((10000000:ℝ),(10000000:ℝ)), ((0:ℝ),(10000000:ℝ)))] := rfl
  have hgood : NoSeparatingAxis bigSq bigSq := by
    intro e he
    rw [hE] at he
    fin_cases he
    · exact good_of_data dBig1 (by norm_num) (by norm_num)
    · exact good_of_data dBig2 (by norm_num) (by norm_num)
    · exact good_of_data dBig3 (by norm_num) (by norm_num)
    · exact good_of_data dBig4 (by norm_num) (by norm_num)
    · exact good_of_data dBig1 (by norm_num) (by norm_num)
    · exact good_of_data dBig2 (by norm_num) (by norm_num)
    · exact good_of_data dBig3 (by norm_num) (by norm_num)
    · exact good_of_data dBig4 (by norm_num) (by norm_num)
  have hsz : ∀ e ∈ edges bigSq ++ edges bigSq,
      (10000000:ℝ) ≤ overlapSize bigSq bigSq e := by
    intro e he
    rw [hE] at he
    fin_cases he
    · rw [overlapSize_eval _ _ _ _ _ _ dBig1]; norm_num
    · rw [overlapSize_eval _ _ _ _ _ _ dBig2]; norm_num
    · rw [overlapSize_eval _ _ _ _ _ _ dBig3]; norm_num
    · rw [overlapSize_eval _ _ _ _ _ _ dBig4]; norm_num
    · rw [overlapSize_eval _ _ _ _ _ _ dBig1]; norm_num
    · rw [overlapSize_eval _ _ _ _ _ _ dBig2]; norm_num
    · rw [overlapSize_eval _ _ _ _ _ _ dBig3]; norm_num
    · rw [overlapSize_eval _ _ _ _ _ _ dBig4]; norm_num
  refine ⟨hgood, ?_⟩
  rw [intersectsPolygon, satLoop_good_run bigSq bigSq _ hgood 10000000 Option.none,
    satFold_stable bigSq bigSq _ 10000000 Option.none hsz]

/-- Witness for C2: the unit square against the unit square shifted by
(2, 0), separated already on the first tested axis. -/
theorem separating_axis_early_none_witness :
    ((-1:ℝ) > (-2:ℝ) ∨ (-3:ℝ) > (0:ℝ)) ∧
    satLoop sqA sq2 (edges sqA ++ edges sq2) 10000000 Option.none = SatState.separated ∧
    intersectsPolygon sqA sq2 = SatOutcome.none := by
  have h := separating_axis_early_none sqA sq2 []
    [(((0:ℝ),(0:ℝ)), ((1:ℝ),(0:ℝ))),
     (((1:ℝ),(0:ℝ)), ((1:ℝ),(1:ℝ))), (((1:ℝ),(1:ℝ)), ((0:ℝ),(1:ℝ))),
     (((2:ℝ),(1:ℝ)), ((2:ℝ),(0:ℝ))), (((2:ℝ),(0:ℝ)), ((3:ℝ),(0:ℝ))),
     (((3:ℝ),(0:ℝ)), ((3:ℝ),(1:ℝ))), (((3:ℝ),(1:ℝ)), ((2:ℝ),(1:ℝ)))]
    (((0:ℝ),(1:ℝ)), ((0:ℝ),(0:ℝ))) ((-1:ℝ),(0:ℝ)) (-1) 0 (-3) (-2) 10000000 Option.none
    rfl rfl axA1 pA_nx p2_nx (Or.inl (by norm_num))
  exact ⟨Or.inl (by norm_num), h.1, h.2⟩

/-- Counterexample to C3 as stated: `dupSq` contains a zero length edge
(the repeated vertex (0,1)), yet against the far square `sq3` the loop
exits with None on its first separating axis before ever reaching the
degenerate edge, so no DegenerateAxis failure is reported. -/
theorem degenerate_edge_not_always_detected_cex :
    ((((0:ℝ),(1:ℝ)), ((0:ℝ),(1:ℝ))) ∈ edges dupSq) ∧
    intersectsPolygon dupSq sq3 = SatOutcome.none := by
  constructor
  · rw [show edges dupSq =
      [(((0:ℝ),(1:ℝ)), ((0:ℝ),(0:ℝ))), (((0:ℝ),(0:ℝ)), ((1:ℝ),(0:ℝ))),
       (((1:ℝ),(0:ℝ)), ((1:ℝ),(1:ℝ))), (((1:ℝ),(1:ℝ)), ((0:ℝ),(1:ℝ))),
       (((0:ℝ),(1:ℝ)), ((0:ℝ),(1:ℝ)))] from rfl]
    simp
  · have hsep : satLoop dupSq sq3 (edges dupSq ++ edges sq3) 10000000 Option.none
        = SatState.separated := by
      rw [show edges dupSq ++ edges sq3 =
        (((0:ℝ),(1:ℝ)), ((0:ℝ),(0:ℝ))) ::
        [(((0:ℝ),(0:ℝ)), ((1:ℝ),(0:ℝ))),
         (((1:ℝ),(0:ℝ)), ((1:ℝ),(1:ℝ))), (((1:ℝ),(1:ℝ)), ((0:ℝ),(1:ℝ))),
         (((0:ℝ),(1:ℝ)), ((0:ℝ),(1:ℝ))),
         (((3:ℝ),(1:ℝ)), ((3:ℝ),(0:ℝ))), (((3:ℝ),(0:ℝ)), ((4:ℝ),(0:ℝ))),
         (((4:ℝ),(0:ℝ)), ((4:ℝ),(1:ℝ))), (((4:ℝ),(1:ℝ)), ((3:ℝ),(1:ℝ)))] from rfl]
      apply satLoop_cons_stop
      · exact satStep_sep dupSq sq3 10000000 Option.none _ ((-1:ℝ),(0:ℝ))
          (-1) 0 (-4) (-3) axA1 pdup_nx p3_nx (Or.inl (by norm_num))
      · intro r2 ret2 h
        cases h
    rw [intersectsPolygon, hsep]

/-- Witness for C3 (amended): two single point polygons; the wrap around
edge of the first polygon has zero length and its axis is the first one
tested, so the DegenerateAxis failure is reported. -/
theorem degenerate_edge_detected_witness :
    ((((0:ℝ),(0:ℝ)) : V) = ((0:ℝ),(0:ℝ))) ∧
    intersectsPolygon [((0:ℝ),(0:ℝ))] [((0:ℝ),(0:ℝ))] = SatOutcome.error :=
  ⟨rfl, degenerate_edge_detected [((0:ℝ),(0:ℝ))] [((0:ℝ),(0:ℝ))] []
    [((((0:ℝ),(0:ℝ)) : V), (((0:ℝ),(0:ℝ)) : V))]
    ((((0:ℝ),(0:ℝ)) : V), (((0:ℝ),(0:ℝ)) : V)) 10000000 Option.none rfl rfl rfl⟩

lemma edges_A1 : edges sqA ++ edges sq1 =
    [(((0:ℝ),(1:ℝ)), ((0:ℝ),(0:ℝ))), (((0:ℝ),(0:ℝ)), ((1:ℝ),(0:ℝ))),
     (((1:ℝ),(0:ℝ)), ((1:ℝ),(1:ℝ))), (((1:ℝ),(1:ℝ)), ((0:ℝ),(1:ℝ))),
     (((1:ℝ),(1:ℝ)), ((1:ℝ),(0:ℝ))), (((1:ℝ),(0:ℝ)), ((2:ℝ),(0:ℝ))),
     (((2:ℝ),(0:ℝ)), ((2:ℝ),(1:ℝ))), (((2:ℝ),(1:ℝ)), ((1:ℝ),(1:ℝ)))] := rfl

/-- Witness for C10: the unit square against the unit square shifted by
(1, 0); the two share an edge, the projections touch with overlap zero on
the first axis, and the reported result is the zero vector, not None. -/
theorem touching_projections_zero_mtv_witness :
    (overlapSize sqA sq1 (((0:ℝ),(1:ℝ)), ((0:ℝ),(0:ℝ))) = 0) ∧
    intersectsPolygon sqA sq1 = SatOutcome.mtv ((0:ℝ), (0:ℝ)) := by
  have hz0 : overlapSize sqA sq1 (((0:ℝ),(1:ℝ)), ((0:ℝ),(0:ℝ))) = 0 := by
    rw [overlapSize_eval _ _ _ _ _ _ dA1_1]; norm_num
  refine ⟨hz0, ?_⟩
  apply touching_projections_zero_mtv sqA sq1
  · intro e he
    rw [edges_A1] at he
    fin_cases he
    · exact good_of_data dA1_1 (by norm_num) (by norm_num)
    · exact good_of_data dA1_2 (by norm_num) (by norm_num)
    · exact good_of_data dA1_3 (by norm_num) (by norm_num)
    · exact good_of_data dA1_4 (by norm_num) (by norm_num)
    · exact good_of_data dA1_5 (by norm_num) (by norm_num)
    · exact good_of_data dA1_6 (by norm_num) (by norm_num)
    · exact good_of_data dA1_7 (by norm_num) (by norm_num)
    · exact good_of_data dA1_8 (by norm_num) (by norm_num)
  · refine ⟨(((0:ℝ),(1:ℝ)), ((0:ℝ),(0:ℝ))), ?_, hz0⟩
    rw [edges_A1]
    simp
  · intro e he
    rw [edges_A1] at he
    fin_cases he
    · rw [overlapSize_eval _ _ _ _ _ _ dA1_1]; norm_num
    · rw [overlapSize_eval _ _ _ _ _ _ dA1_2]; norm_num
    · rw [overlapSize_eval _ _ _ _ _ _ dA1_3]; norm_num
    · rw [overlapSize_eval _ _ _ _ _ _ dA1_4]; norm_num
    · rw [overlapSize_eval _ _ _ _ _ _ dA1_5]; norm_num
    · rw [overlapSize_eval _ _ _ _ _ _ dA1_6]; norm_num
    · rw [overlapSize_eval _ _ _ _ _ _ dA1_7]; norm_num
    · rw [overlapSize_eval _ _ _ _ _ _ dA1_8]; norm_num

/-! ### Orientation geometry -/

lemma cross_cyclic (p q r : V) : cross p q r = cross q r p := by
  rw [cross, cross]; ring

lemma cross_swap23 (p q r : V) : cross p q r = -cross p r q := by
  rw [cross, cross]; ring

lemma cross_right_self (p q : V) : cross p q q = 0 := by rw [cross]; ring

lemma cross_outer_self (p q : V) : cross p q p = 0 := by rw [cross]; ring

lemma cross_pneg (p q r : V) : cross (pneg p) (pneg q) (pneg r) = cross p q r := by
  rw [cross, cross, pneg, pneg, pneg]; ring

lemma isRightTurn_iff (p q r : V) : isRightTurn p q r = true ↔ cross p q r < 0 := by
  have h : q.1 * r.2 + p.1 * q.2 + r.1 * p.2 - (q.1 * p.2 + r.1 * q.2 + p.1 * r.2)
      = cross p q r := by rw [cross]; ring
  rw [isRightTurn, h]
  split_ifs with hc
  · simp [hc]
  · simp [hc]

lemma ptLe_fst {p q : V} (h : ptLe p q) : p.1 ≤ q.1 := by
  rcases h with h | ⟨h, _⟩
  · exact h.le
  · exact h.le

lemma ptLt_fst {p q : V} (h : ptLt p q) : p.1 ≤ q.1 := by
  rcases h with h | ⟨h, _⟩
  · exact h.le
  · exact h.le

lemma ptLe_of_ptLt {p q : V} (h : ptLt p q) : ptLe p q := by
  rcases h with h | ⟨h1, h2⟩
  · exact Or.inl h
  · exact Or.inr ⟨h1, h2.le⟩

lemma ptLt_irrefl (p : V) : ¬ ptLt p p := by
  rintro (h | ⟨_, h⟩)
  · exact lt_irrefl _ h
  · exact lt_irrefl _ h

lemma ptLt_trans {p q r : V} (h1 : ptLt p q) (h2 : ptLt q r) : ptLt p r := by
  rcases h1 with h1 | ⟨h1a, h1b⟩ <;> rcases h2 with h2 | ⟨h2a, h2b⟩
  · exact Or.inl (h1.trans h2)
  · exact Or.inl (lt_of_lt_of_eq h1 h2a)
  · exact Or.inl (lt_of_eq_of_lt h1a h2)
  · exact Or.inr ⟨h1a.trans h2a, h1b.trans h2b⟩

lemma ptLt_asymm {p q : V} (h1 : ptLt p q) (h2 : ptLt q p) : False :=
  ptLt_irrefl p (ptLt_trans h1 h2)

lemma ptLt_ne {p q : V} (h : ptLt p q) : p ≠ q := by
  rintro rfl
  exact ptLt_irrefl p h

lemma ptLe_trans {p q r : V} (h1 : ptLe p q) (h2 : ptLe q r) : ptLe p r := by
  rcases h1 with h1 | ⟨h1a, h1b⟩ <;> rcases h2 with h2 | ⟨h2a, h2b⟩
  · exact Or.inl (h1.trans h2)
  · exact Or.inl (lt_of_lt_of_eq h1 h2a)
  · exact Or.inl (lt_of_eq_of_lt h1a h2)
  · exact Or.inr ⟨h1a.trans h2a, h1b.trans h2b⟩

lemma ptLt_of_ptLe_ne {p q : V} (h : ptLe p q) (hne : p ≠ q) : ptLt p q := by
  rcases h with h | ⟨h1, h2⟩
  · exact Or.inl h
  · rcases lt_or_eq_of_le h2 with h3 | h3
    · exact Or.inr ⟨h1, h3⟩
    · exact absurd (Prod.ext h1 h3) hne

lemma ptLe_total (p q : V) : ptLe p q ∨ ptLe q p := by
  rcases lt_trichotomy p.1 q.1 with h | h | h
  · exact Or.inl (Or.inl h)
  · rcases le_total p.2 q.2 with h2 | h2
    · exact Or.inl (Or.inr ⟨h, h2⟩)
    · exact Or.inr (Or.inr ⟨h.symm, h2⟩)
  · exact Or.inr (Or.inl h)

lemma ptLt_pneg {p q : V} : ptLt (pneg p) (pneg q) ↔ ptLt q p := by
  rw [pneg, pneg, ptLt, ptLt]
  constructor
  · rintro (h | ⟨h1, h2⟩)
    · exact Or.inl (by dsimp at h; linarith)
    · exact Or.inr ⟨by dsimp at h1; linarith, by dsimp at h2; linarith⟩
  · rintro (h | ⟨h1, h2⟩)
    · exact Or.inl (by dsimp; linarith)
    · exact Or.inr ⟨by dsimp; linarith, by dsimp; linarith⟩

/-- The master interpolation identity: the orientation of (a, x, b) against
the width of a reference segment (c, d), in terms of the orientations of
a, x, b against that segment. -/
lemma cross_master (c d a x b : V) :
    cross a x b * (d.1 - c.1) =
      (x.1 - a.1) * cross c d b + (b.1 - x.1) * cross c d a
        - (b.1 - a.1) * cross c d x := by
  rw [cross, cross, cross, cross]; ring

/-- A negatively oriented lex-ordered triple has its last two first
coordinates strictly ordered. -/
lemma cross_neg_lt {a b c : V} (hab : ptLe a b) (hbc : ptLe b c)
    (h : cross a b c < 0) : b.1 < c.1 := by
  rcases lt_or_eq_of_le (ptLe_fst hbc) with h1 | h1
  · exact h1
  · exfalso
    have h2 : b.2 ≤ c.2 := by
      rcases hbc with h3 | ⟨_, h3⟩
      · exact absurd h3 (by rw [h1]; exact lt_irrefl _)
      · exact h3
    have hc : cross a b c = (b.1 - a.1) * (c.2 - b.2) := by
      rw [cross, ← h1]; ring
    have h3 : 0 ≤ (b.1 - a.1) * (c.2 - b.2) :=
      mul_nonneg (by linarith [ptLe_fst hab]) (by linarith)
    linarith [hc ▸ h]

/-- A positively oriented lex-ordered triple has its first two first
coordinates strictly ordered. -/
lemma cross_pos_lt {a b c : V} (hab : ptLe a b) (hbc : ptLe b c)
    (h : 0 < cross a b c) : a.1 < b.1 := by
  rcases lt_or_eq_of_le (ptLe_fst hab) with h1 | h1
  · exact h1
  · exfalso
    have h2 : a.2 ≤ b.2 := by
      rcases hab with h3 | ⟨_, h3⟩
      · exact absurd h3 (by rw [h1]; exact lt_irrefl _)
      · exact h3
    have hc : cross a b c = -((b.2 - a.2) * (c.1 - a.1)) := by
      rw [cross, ← h1]; ring
    have h3 : 0 ≤ (b.2 - a.2) * (c.1 - a.1) :=
      mul_nonneg (by linarith) (by linarith [ptLe_fst hbc])
    linarith [hc ▸ h]

lemma mul_neg_of_factor {x w : ℝ} (h : x * w < 0) (hw : 0 < w) : x < 0 := by
  by_contra hc
  push_neg at hc
  exact absurd h (not_lt.mpr (mul_nonneg hc hw.le))

lemma mul_pos_of_factor {x w : ℝ} (h : 0 < x * w) (hw : 0 < w) : 0 < x := by
  by_contra hc
  push_neg at hc
  exact absurd h (not_lt.mpr (mul_nonpos_of_nonpos_of_nonneg hc hw.le))

/-- Right turns extend along the chain: the outer pair of two adjacent
right turns again turns right with the first middle point. -/
lemma geomEXT3 {a b c d : V} (hab : ptLe a b) (hbc : ptLe b c) (hcd : ptLe c d)
    (h1 : cross a b c < 0) (h2 : cross b c d < 0) : cross a b d < 0 := by
  have hb1 : b.1 < c.1 := cross_neg_lt hab hbc h1
  have hm := cross_master b c a b d
  rw [cross_outer_self] at hm
  have hca : cross b c a = cross a b c := by
    rw [cross_cyclic a b c]
  rw [hca] at hm
  have t1 : (b.1 - a.1) * cross b c d ≤ 0 :=
    mul_nonpos_of_nonneg_of_nonpos (by linarith [ptLe_fst hab]) h2.le
  have t2 : (d.1 - b.1) * cross a b c < 0 :=
    mul_neg_of_pos_of_neg (by linarith [ptLe_fst hcd]) h1
  have hprod : cross a b d * (c.1 - b.1) < 0 := by linarith
  exact mul_neg_of_factor hprod (by linarith)

/-- Right turns extend along the chain: the outer pair of two adjacent
right turns again turns right with the second middle point. -/
lemma geomEXTD {a b c d : V} (hab : ptLe a b) (hbc : ptLe b c) (hcd : ptLe c d)
    (h1 : cross a b c < 0) (h2 : cross b c d < 0) : cross a c d < 0 := by
  have hb1 : b.1 < c.1 := cross_neg_lt hab hbc h1
  have hm := cross_master b c a c d
  rw [cross_right_self] at hm
  have hca : cross b c a = cross a b c := by rw [cross_cyclic a b c]
  rw [hca] at hm
  have t1 : (c.1 - a.1) * cross b c d < 0 :=
    mul_neg_of_pos_of_neg (by linarith [ptLe_fst hab]) h2
  have t2 : (d.1 - c.1) * cross a b c ≤ 0 :=
    mul_nonpos_of_nonneg_of_nonpos (by linarith [ptLe_fst hcd]) h1.le
  have hprod : cross a c d * (c.1 - b.1) < 0 := by linarith
  exact mul_neg_of_factor hprod (by linarith)

/-- A point strictly below the base chord is strictly below the chord from
the base start to any point strictly above the base chord. -/
lemma geomB {t0 a x tl : V} (h0a : ptLe t0 a) (hax : ptLe a x) (hxl : ptLe x tl)
    (hLa : 0 < cross t0 a tl) (hLx : cross t0 x tl < 0) : 0 < cross t0 a x := by
  have ha1 : t0.1 < a.1 := cross_pos_lt h0a (ptLe_trans hax hxl) hLa
  have hm := cross_master t0 tl t0 a x
  rw [cross_outer_self] at hm
  have e1 : cross t0 tl x = -cross t0 x tl := by rw [cross_swap23 t0 x tl, neg_neg]
  have e2 : cross t0 tl a = -cross t0 a tl := by rw [cross_swap23 t0 a tl, neg_neg]
  rw [e1, e2] at hm
  have t1 : 0 < (a.1 - t0.1) * (-cross t0 x tl) :=
    mul_pos (by linarith) (by linarith)
  have t2 : 0 ≤ (x.1 - t0.1) * cross t0 a tl :=
    mul_nonneg (by linarith [ptLe_fst hax]) hLa.le
  have hW : (0:ℝ) < tl.1 - t0.1 := by
    linarith [ptLe_fst hax, ptLe_fst hxl]
  have hprod : 0 < cross t0 a x * (tl.1 - t0.1) := by linarith
  exact mul_pos_of_factor hprod hW

/-- A point strictly below a cap chord from the base start stays strictly
below the cap vertex edge to any later point below the supporting line. -/
lemma geomA {t0 a x b : V} (h0a : ptLe t0 a) (hax : ptLe a x) (hxb : ptLe x b)
    (h1 : 0 < cross t0 a x) (h2 : cross t0 x b < 0) : cross a x b < 0 := by
  have ha1 : t0.1 < a.1 := cross_pos_lt h0a hax h1
  have hb1 : x.1 < b.1 := cross_neg_lt (ptLe_trans h0a hax) hxb h2
  have hm := cross_master t0 x a x b
  rw [cross_right_self] at hm
  have e1 : cross t0 x a = -cross t0 a x := by rw [cross_swap23 t0 a x, neg_neg]
  rw [e1] at hm
  have t1 : (x.1 - a.1) * cross t0 x b ≤ 0 :=
    mul_nonpos_of_nonneg_of_nonpos (by linarith [ptLe_fst hax]) h2.le
  have t2 : (b.1 - x.1) * (-cross t0 a x) < 0 :=
    mul_neg_of_pos_of_neg (by linarith) (by linarith)
  have hprod : cross a x b * (x.1 - t0.1) < 0 := by linarith
  exact mul_neg_of_factor hprod (by linarith [ptLe_fst hax])

/-- Mirror image of `geomB` at the right end of the base chord. -/
lemma geomBR {t0 x b tl : V} (h0x : ptLe t0 x) (hxb : ptLe x b) (hbl : ptLe b tl)
    (hLx : cross t0 x tl < 0) (hLb : 0 < cross t0 b tl) : 0 < cross x b tl := by
  have hx1 : x.1 < tl.1 := cross_neg_lt h0x (ptLe_trans hxb hbl) hLx
  have hb1 : t0.1 < b.1 := cross_pos_lt (ptLe_trans h0x hxb) hbl hLb
  have hm := cross_master t0 tl x b tl
  rw [cross_right_self] at hm
  have e1 : cross t0 tl x = -cross t0 x tl := by rw [cross_swap23 t0 x tl, neg_neg]
  have e2 : cross t0 tl b = -cross t0 b tl := by rw [cross_swap23 t0 b tl, neg_neg]
  rw [e1, e2] at hm
  have t1 : 0 ≤ (tl.1 - b.1) * (-cross t0 x tl) :=
    mul_nonneg (by linarith [ptLe_fst hbl]) (by linarith)
  have t2 : 0 < (tl.1 - x.1) * cross t0 b tl := mul_pos (by linarith) hLb
  have hprod : 0 < cross x b tl * (tl.1 - t0.1) := by linarith
  exact mul_pos_of_factor hprod (by linarith [ptLe_fst hbl])

/-- Mirror image of `geomA` at the right end. -/
lemma geomAR {a x b tl : V} (hax : ptLe a x) (hxb : ptLe x b) (hbl : ptLe b tl)
    (h1 : cross a x tl < 0) (h2 : 0 < cross x b tl) : cross a x b < 0 := by
  have hx1 : x.1 < tl.1 := cross_neg_lt hax (ptLe_trans hxb hbl) h1
  have hb1 : x.1 < b.1 := cross_pos_lt hxb hbl h2
  have hm := cross_master x tl a x b
  rw [cross_outer_self] at hm
  have e1 : cross x tl b = -cross x b tl := by rw [cross_swap23 x b tl, neg_neg]
  have e2 : cross x tl a = cross a x tl := by
    rw [cross_cyclic a x tl, cross_cyclic x tl a]
  rw [e1, e2] at hm
  have t1 : (x.1 - a.1) * (-cross x b tl) ≤ 0 :=
    mul_nonpos_of_nonneg_of_nonpos (by linarith [ptLe_fst hax]) (by linarith)
  have t2 : (b.1 - x.1) * cross a x tl < 0 :=
    mul_neg_of_pos_of_neg (by linarith) h1
  have hprod : cross a x b * (tl.1 - x.1) < 0 := by linarith
  exact mul_neg_of_factor hprod (by linarith)

/-- A point strictly above the base chord is strictly above every chord of
two points strictly below the base chord. -/
lemma geomC {t0 a x b tl : V} (h0a : ptLe t0 a) (hax : ptLe a x) (hxb : ptLe x b)
    (hbl : ptLe b tl) (hLa : 0 < cross t0 a tl) (hLb : 0 < cross t0 b tl)
    (hLx : cross t0 x tl < 0) : cross a x b < 0 := by
  have ha1 : t0.1 < a.1 :=
    cross_pos_lt h0a (ptLe_trans hax (ptLe_trans hxb hbl)) hLa
  have hx1 : x.1 < tl.1 := cross_neg_lt (ptLe_trans h0a hax) (ptLe_trans hxb hbl) hLx
  have hW : (0:ℝ) < tl.1 - t0.1 := by linarith [ptLe_fst hax, ptLe_fst hxb]
  by_cases hone : a.1 = b.1
  · exfalso
    have hxa : x.1 = b.1 := le_antisymm (ptLe_fst hxb) (by
      rw [← hone] at *
      exact ptLe_fst hax)
    have hx2 : x.2 ≤ b.2 := by
      rcases hxb with h3 | ⟨_, h3⟩
      · exact absurd h3 (by rw [hxa]; exact lt_irrefl _)
      · exact h3
    have hdiff : cross t0 x tl - cross t0 b tl
        = (x.1 - b.1) * (tl.2 - t0.2) + (tl.1 - t0.1) * (b.2 - x.2) := by
      rw [cross, cross]; ring
    have h4 : 0 ≤ (tl.1 - t0.1) * (b.2 - x.2) := mul_nonneg hW.le (by linarith)
    rw [hxa] at hdiff
    simp only [sub_self, zero_mul, zero_add] at hdiff
    linarith
  · have hab1 : a.1 < b.1 :=
      lt_of_le_of_ne (le_trans (ptLe_fst hax) (ptLe_fst hxb)) hone
    have hm := cross_master t0 tl a x b
    have e1 : cross t0 tl b = -cross t0 b tl := by rw [cross_swap23 t0 b tl, neg_neg]
    have e2 : cross t0 tl a = -cross t0 a tl := by rw [cross_swap23 t0 a tl, neg_neg]
    have e3 : cross t0 tl x = -cross t0 x tl := by rw [cross_swap23 t0 x tl, neg_neg]
    rw [e1, e2, e3] at hm
    have t1 : (x.1 - a.1) * (-cross t0 b tl) ≤ 0 :=
      mul_nonpos_of_nonneg_of_nonpos (by linarith [ptLe_fst hax]) (by linarith)
    have t2 : (b.1 - x.1) * (-cross t0 a tl) ≤ 0 :=
      mul_nonpos_of_nonneg_of_nonpos (by linarith [ptLe_fst hxb]) (by linarith)
    have t3 : (b.1 - a.1) * (-cross t0 x tl) > 0 :=
      mul_pos (by linarith) (by linarith)
    have hprod : cross a x b * (tl.1 - t0.1) < 0 := by linarith
    exact mul_neg_of_factor hprod hW

/-! ### Chain combinatorics: the while loop -/

lemma RT3_tail (a : V) (l : List V) (h : RT3 (a :: l)) : RT3 l := by
  match l with
  | [] => trivial
  | [_] => trivial
  | b :: c :: t => exact h.2

lemma popBadAux_shape (r : V) (l : List V) :
    ∃ t, popBadAux r l = r :: t ∧ List.Sublist t l := by
  match l with
  | [] => exact ⟨[], rfl, List.Sublist.refl _⟩
  | [q] => exact ⟨[q], rfl, List.Sublist.refl _⟩
  | q :: p :: rest =>
    rw [popBadAux]
    by_cases hturn : isRightTurn p q r
    · rw [if_pos hturn]
      exact ⟨q :: p :: rest, rfl, List.Sublist.refl _⟩
    · rw [if_neg hturn]
      obtain ⟨t, ht, hsub⟩ := popBadAux_shape r (p :: rest)
      exact ⟨t, ht, hsub.trans (List.sublist_cons_self q (p :: rest))⟩
termination_by l.length
decreasing_by simp [List.length_cons]

lemma popBadAux_sublist (r : V) (l : List V) :
    List.Sublist (popBadAux r l) (r :: l) := by
  obtain ⟨t, ht, hsub⟩ := popBadAux_shape r l
  rw [ht]
  exact List.Sublist.cons₂ r hsub

lemma popBadAux_getLast (r : V) (l : List V) :
    (popBadAux r l).getLast? = (r :: l).getLast? := by
  match l with
  | [] => rfl
  | [q] => rfl
  | q :: p :: rest =>
    rw [popBadAux]
    by_cases hturn : isRightTurn p q r
    · rw [if_pos hturn]
    · rw [if_neg hturn, popBadAux_getLast r (p :: rest)]
      rw [List.getLast?_cons_cons, List.getLast?_cons_cons, List.getLast?_cons_cons]
termination_by l.length
decreasing_by simp [List.length_cons]

lemma popBadAux_RT3 (r : V) (l : List V) (h : RT3 l) : RT3 (popBadAux r l) := by
  match l with
  | [] => trivial
  | [q] => trivial
  | q :: p :: rest =>
    rw [popBadAux]
    by_cases hturn : isRightTurn p q r
    · rw [if_pos hturn]
      exact ⟨(isRightTurn_iff p q r).mp hturn, h⟩
    · rw [if_neg hturn]
      exact popBadAux_RT3 r (p :: rest) (RT3_tail q (p :: rest) h)
termination_by l.length
decreasing_by simp [List.length_cons]

lemma popBadAux_keep {T : List V} {x : V} {R : V → V → Prop}
    (Hx : ∀ p ∈ T, ∀ s ∈ T, R p x → R x s → cross p x s < 0)
    (r : V) (l : List V) (hmem : ∀ a ∈ r :: l, a ∈ T)
    (hsort : (r :: l).Pairwise (fun a b => R b a))
    (hx : x ∈ r :: l) : x ∈ popBadAux r l := by
  match l with
  | [] => exact hx
  | [q] => exact hx
  | q :: p :: rest =>
    rw [popBadAux]
    by_cases hturn : isRightTurn p q r
    · rw [if_pos hturn]; exact hx
    · rw [if_neg hturn]
      have hq : q ≠ x := by
        rintro rfl
        apply hturn
        rw [isRightTurn_iff]
        have h1 : R q r := (List.pairwise_cons.mp hsort).1 q (List.mem_cons_self q _)
        have h2 : R p q :=
          (List.pairwise_cons.mp (List.pairwise_cons.mp hsort).2).1 p
            (List.mem_cons_self p _)
        exact Hx p (hmem p (by simp)) r (hmem r (by simp)) h2 h1
      have hsub : List.Sublist (r :: p :: rest) (r :: q :: p :: rest) :=
        List.Sublist.cons₂ r (List.sublist_cons_self q (p :: rest))
      apply popBadAux_keep Hx r (p :: rest)
      · intro a ha
        exact hmem a (hsub.mem ha)
      · exact hsort.sublist hsub
      · rcases List.mem_cons.mp hx with rfl | hx2
        · exact List.mem_cons_self x _
        · rcases List.mem_cons.mp hx2 with rfl | hx3
          · exact absurd rfl hq
          · exact List.mem_cons_of_mem r hx3
termination_by l.length
decreasing_by simp [List.length_cons]

lemma popBad_cons (r : V) (l : List V) : popBad (r :: l) = popBadAux r l := rfl

/-! ### Chain combinatorics: the outer loop -/

lemma chainRev_nil (acc : List V) : chainRev acc [] = acc := rfl

lemma chainRev_cons (acc : List V) (p : V) (rem : List V) :
    chainRev acc (p :: rem) = chainRev (popBad (p :: acc)) rem := rfl

lemma chainRev_mem : ∀ (rem acc : List V) (y : V),
    y ∈ chainRev acc rem → y ∈ acc ∨ y ∈ rem := by
  intro rem
  induction rem with
  | nil => intro acc y h; exact Or.inl h
  | cons p rem2 ih =>
    intro acc y h
    rw [chainRev_cons, popBad_cons] at h
    rcases ih (popBadAux p acc) y h with h2 | h2
    · rcases List.mem_cons.mp ((popBadAux_sublist p acc).mem h2) with rfl | h3
      · exact Or.inr (List.mem_cons_self y _)
      · exact Or.inl h3
    · exact Or.inr (List.mem_cons_of_mem p h2)

lemma chainRev_pairwise {R : V → V → Prop} : ∀ (rem acc : List V),
    acc.Pairwise (fun a b => R b a) → rem.Pairwise R →
    (∀ s ∈ rem, ∀ a ∈ acc, R a s) →
    (chainRev acc rem).Pairwise (fun a b => R b a) := by
  intro rem
  induction rem with
  | nil => intro acc h _ _; exact h
  | cons p rem2 ih =>
    intro acc hacc hrem hafter
    rw [chainRev_cons, popBad_cons]
    have hcons : (p :: acc).Pairwise (fun a b => R b a) := by
      rw [List.pairwise_cons]
      exact ⟨fun a ha => hafter p (List.mem_cons_self p _) a ha, hacc⟩
    apply ih
    · exact hcons.sublist (popBadAux_sublist p acc)
    · exact (List.pairwise_cons.mp hrem).2
    · intro s hs a ha
      rcases List.mem_cons.mp ((popBadAux_sublist p acc).mem ha) with rfl | h3
      · exact (List.pairwise_cons.mp hrem).1 s hs
      · exact hafter s (List.mem_cons_of_mem p hs) a h3

lemma chainRev_RT3 : ∀ (rem acc : List V), RT3 acc → RT3 (chainRev acc rem) := by
  intro rem
  induction rem with
  | nil => intro acc h; exact h
  | cons p rem2 ih =>
    intro acc h
    rw [chainRev_cons, popBad_cons]
    exact ih _ (popBadAux_RT3 p acc h)

lemma chainRev_getLast : ∀ (rem acc : List V), acc ≠ [] →
    (chainRev acc rem).getLast? = acc.getLast? := by
  intro rem
  induction rem with
  | nil => intro acc _; rfl
  | cons p rem2 ih =>
    intro acc hne
    rw [chainRev_cons, popBad_cons]
    obtain ⟨t, ht, _⟩ := popBadAux_shape p acc
    rw [ih _ (by rw [ht]; exact List.cons_ne_nil p t)]
    rw [popBadAux_getLast]
    match acc, hne with
    | a :: t2, _ => rw [List.getLast?_cons_cons]

lemma chainRev_head : ∀ (rem acc : List V), rem ≠ [] →
    (chainRev acc rem).head? = rem.getLast? := by
  intro rem
  induction rem with
  | nil => intro _ h; exact absurd rfl h
  | cons p rem2 ih =>
    intro acc _
    rw [chainRev_cons, popBad_cons]
    match rem2, ih with
    | [], _ =>
      rw [chainRev_nil]
      obtain ⟨t, ht, _⟩ := popBadAux_shape p acc
      rw [ht]
      rfl
    | q :: rem3, ih =>
      rw [ih _ (List.cons_ne_nil q rem3), List.getLast?_cons_cons]

lemma chainRev_keep {T : List V} {x : V} {R : V → V → Prop}
    (Hx : ∀ p ∈ T, ∀ s ∈ T, R p x → R x s → cross p x s < 0) :
    ∀ (rem acc : List V), (∀ a ∈ acc, a ∈ T) → (∀ s ∈ rem, s ∈ T) →
    acc.Pairwise (fun a b => R b a) → rem.Pairwise R →
    (∀ s ∈ rem, ∀ a ∈ acc, R a s) →
    (x ∈ acc ∨ x ∈ rem) → x ∈ chainRev acc rem := by
  intro rem
  induction rem with
  | nil =>
    intro acc _ _ _ _ _ hx
    rcases hx with hx | hx
    · exact hx
    · cases hx
  | cons p rem2 ih =>
    intro acc haccT hremT hacc hrem hafter hx
    rw [chainRev_cons, popBad_cons]
    have hconsT : ∀ a ∈ p :: acc, a ∈ T := by
      intro a ha
      rcases List.mem_cons.mp ha with rfl | h3
      · exact hremT a (List.mem_cons_self a _)
      · exact haccT a h3
    have hcons : (p :: acc).Pairwise (fun a b => R b a) := by
      rw [List.pairwise_cons]
      exact ⟨fun a ha => hafter p (List.mem_cons_self p _) a ha, hacc⟩
    apply ih
    · intro a ha
      exact hconsT a ((popBadAux_sublist p acc).mem ha)
    · intro s hs
      exact hremT s (List.mem_cons_of_mem p hs)
    · exact hcons.sublist (popBadAux_sublist p acc)
    · exact (List.pairwise_cons.mp hrem).2
    · intro s hs a ha
      rcases List.mem_cons.mp ((popBadAux_sublist p acc).mem ha) with rfl | h3
      · exact (List.pairwise_cons.mp hrem).1 s hs
      · exact hafter s (List.mem_cons_of_mem p hs) a h3
    · rcases hx with hx | hx
      · exact Or.inl (popBadAux_keep Hx p acc hconsT hcons (List.mem_cons_of_mem p hx))
      · rcases List.mem_cons.mp hx with rfl | h3
        · exact Or.inl (popBadAux_keep Hx x acc hconsT hcons (List.mem_cons_self x _))
        · exact Or.inr h3

/-! ### Convexity of a right turning chain -/

lemma cross_swap13 (p q r : V) : cross p q r = -cross r q p := by
  rw [cross, cross]; ring

lemma pairwise_swap_head {l : List V} {x : V} {R : V → V → Prop}
    (h : (x :: l).Pairwise R) : ∀ a ∈ l, R x a := (List.pairwise_cons.mp h).1

lemma edge_fan_acc : ∀ (l : List V) (x y : V),
    (x :: y :: l).Pairwise (fun a b => ptLt b a) → RT3 (x :: y :: l) →
    ∀ c ∈ l, cross c y x < 0 := by
  intro l
  induction l with
  | nil => intro x y _ _ c hc; cases hc
  | cons z t ih =>
    intro x y hsort hrt c hc
    have hzyx : cross z y x < 0 := hrt.1
    rcases List.mem_cons.mp hc with rfl | hct
    · exact hzyx
    · have hsort2 : (y :: z :: t).Pairwise (fun a b => ptLt b a) :=
        (List.pairwise_cons.mp hsort).2
      have hczy : cross c z y < 0 := ih y z hsort2 hrt.2 c hct
      have hcz : ptLe c z := ptLe_of_ptLt
        (pairwise_swap_head (List.pairwise_cons.mp hsort2).2 c hct)
      have hzy : ptLe z y := ptLe_of_ptLt
        (pairwise_swap_head hsort2 z (List.mem_cons_self z t))
      have hyx : ptLe y x := ptLe_of_ptLt
        (pairwise_swap_head hsort y (List.mem_cons_self y _))
      exact geomEXTD hcz hzy hyx hczy hzyx

lemma head_fan_acc : ∀ (l : List V) (x : V),
    (x :: l).Pairwise (fun a b => ptLt b a) → RT3 (x :: l) →
    ∀ u v, List.Sublist [u, v] l → cross v u x < 0 := by
  intro l
  induction l with
  | nil =>
    intro x _ _ u v hs
    exact absurd (List.Sublist.length_le hs) (by simp)
  | cons y t ih =>
    intro x hsort hrt u v hs
    cases hs with
    | cons₂ _ hs2 =>
      exact edge_fan_acc t x y hsort hrt v (List.singleton_sublist.mp hs2)
    | cons _ hs2 =>
      have hsort2 : (y :: t).Pairwise (fun a b => ptLt b a) :=
        (List.pairwise_cons.mp hsort).2
      have hvuy : cross v u y < 0 :=
        ih y hsort2 (RT3_tail x (y :: t) hrt) u v hs2
      have huyx : cross u y x < 0 := by
        have hu : u ∈ t := by
          have := hs2.mem (List.mem_cons_self u [v])
          exact this
        exact edge_fan_acc t x y hsort hrt u hu
      have hvu : ptLe v u := by
        have hp : ([u, v] : List V).Pairwise (fun a b => ptLt b a) :=
          ((List.pairwise_cons.mp hsort2).2).sublist hs2
        exact ptLe_of_ptLt ((List.pairwise_cons.mp hp).1 v (List.mem_cons_self v []))
      have huy : ptLe u y := ptLe_of_ptLt
        (pairwise_swap_head hsort2 u (hs2.mem (List.mem_cons_self u [v])))
      have hyx : ptLe y x := ptLe_of_ptLt
        (pairwise_swap_head hsort y (List.mem_cons_self y t))
      exact geomEXT3 hvu huy hyx hvuy huyx

lemma convex_acc : ∀ (l : List V),
    l.Pairwise (fun a b => ptLt b a) → RT3 l →
    ∀ u v w, List.Sublist [u, v, w] l → cross w v u < 0 := by
  intro l
  induction l with
  | nil =>
    intro _ _ u v w hs
    exact absurd (List.Sublist.length_le hs) (by simp)
  | cons x t ih =>
    intro hsort hrt u v w hs
    cases hs with
    | cons₂ _ hs2 => exact head_fan_acc t x hsort hrt v w hs2
    | cons _ hs2 =>
      exact ih (List.pairwise_cons.mp hsort).2 (RT3_tail x t hrt) u v w hs2

lemma pneg_injective : ∀ p q : V, pneg p = pneg q → p = q := by
  intro p q h
  rw [pneg, pneg, Prod.mk.injEq] at h
  exact Prod.ext (by linarith [h.1]) (by linarith [h.2])

lemma RT3_map_pneg : ∀ l : List V, RT3 (l.map pneg) ↔ RT3 l := by
  intro l
  match l with
  | [] => exact Iff.rfl
  | [a] => exact Iff.rfl
  | [a, b] => exact Iff.rfl
  | a :: b :: c :: t =>
    rw [List.map_cons, List.map_cons, List.map_cons]
    show cross (pneg c) (pneg b) (pneg a) < 0 ∧ RT3 _ ↔ cross c b a < 0 ∧ RT3 _
    rw [cross_pneg]
    have hih := RT3_map_pneg (b :: c :: t)
    rw [List.map_cons, List.map_cons] at hih
    exact and_congr_right fun _ => hih

/-- Convexity of a left turning increasing chain, by pointwise negation. -/
lemma convex_acc_incr (l : List V) (hsort : l.Pairwise ptLt) (hrt : RT3 l) :
    ∀ u v w, List.Sublist [u, v, w] l → 0 < cross u v w := by
  intro u v w hs
  have hsort2 : (l.map pneg).Pairwise (fun a b => ptLt b a) := by
    rw [List.pairwise_map]
    exact hsort.imp fun h => ptLt_pneg.mpr h
  have hrt2 : RT3 (l.map pneg) := (RT3_map_pneg l).mpr hrt
  have hs2 : List.Sublist [pneg u, pneg v, pneg w] (l.map pneg) := by
    have := hs.map pneg
    simpa using this
  have h := convex_acc (l.map pneg) hsort2 hrt2 (pneg u) (pneg v) (pneg w) hs2
  rw [cross_pneg, cross_swap13 w v u] at h
  linarith

/-! ### Sorted membership gives sublists -/

lemma sublist2_of_mem {R : V → V → Prop}
    (hasym : ∀ p q : V, R p q → R q p → False) :
    ∀ (l : List V) (a b : V), l.Pairwise R → a ∈ l → b ∈ l → R a b →
      List.Sublist [a, b] l := by
  intro l
  induction l with
  | nil => intro a b _ ha _ _; cases ha
  | cons x t ih =>
    intro a b hsort ha hb hr
    by_cases hax : a = x
    · subst hax
      have hbt : b ∈ t := by
        rcases List.mem_cons.mp hb with rfl | h
        · exact absurd hr (fun h2 => hasym b b h2 h2)
        · exact h
      exact List.Sublist.cons₂ a (List.singleton_sublist.mpr hbt)
    · have hat : a ∈ t := by
        rcases List.mem_cons.mp ha with rfl | h
        · exact absurd rfl hax
        · exact h
      have hbt : b ∈ t := by
        rcases List.mem_cons.mp hb with rfl | h
        · exact absurd hr (fun h2 => hasym a b h2
            ((List.pairwise_cons.mp hsort).1 a hat))
        · exact h
      exact List.Sublist.cons x (ih a b (List.pairwise_cons.mp hsort).2 hat hbt hr)

lemma sublist3_of_mem {R : V → V → Prop}
    (hasym : ∀ p q : V, R p q → R q p → False) :
    ∀ (l : List V) (a b c : V), l.Pairwise R → a ∈ l → b ∈ l → c ∈ l →
      R a b → R b c → List.Sublist [a, b, c] l := by
  intro l
  induction l with
  | nil => intro a b c _ ha _ _ _ _; cases ha
  | cons x t ih =>
    intro a b c hsort ha hb hc hab hbc
    by_cases hax : a = x
    · subst hax
      have hbt : b ∈ t := by
        rcases List.mem_cons.mp hb with rfl | h
        · exact absurd hab (fun h2 => hasym b b h2 h2)
        · exact h
      have hct : c ∈ t := by
        rcases List.mem_cons.mp hc with rfl | h
        · exact absurd hbc (fun h2 => hasym b c h2
            ((List.pairwise_cons.mp hsort).1 b hbt))
        · exact h
      exact List.Sublist.cons₂ a
        (sublist2_of_mem hasym t b c (List.pairwise_cons.mp hsort).2 hbt hct hbc)
    · have hat : a ∈ t := by
        rcases List.mem_cons.mp ha with rfl | h
        · exact absurd rfl hax
        · exact h
      have hbt : b ∈ t := by
        rcases List.mem_cons.mp hb with rfl | h
        · exact absurd hab (fun h2 => hasym a b h2
            ((List.pairwise_cons.mp hsort).1 a hat))
        · exact h
      have hct : c ∈ t := by
        rcases List.mem_cons.mp hc with rfl | h
        · exact absurd hbc (fun h2 => hasym b c h2
            ((List.pairwise_cons.mp hsort).1 b hbt))
        · exact h
      exact List.Sublist.cons x
        (ih a b c (List.pairwise_cons.mp hsort).2 hat hbt hct hab hbc)

/-! ### Chordal position of the two chains -/

lemma ptLe_refl (p : V) : ptLe p p := Or.inr ⟨rfl, le_refl _⟩

lemma mem_of_head? {l : List V} {a : V} (h : l.head? = some a) : a ∈ l := by
  match l, h with
  | b :: t, h =>
    rw [List.head?_cons, Option.some.injEq] at h
    rw [← h]
    exact List.mem_cons_self b t

lemma mem_of_getLast? {l : List V} {a : V} (h : l.getLast? = some a) : a ∈ l := by
  induction l with
  | nil => cases h
  | cons b t ih =>
    match t, ih with
    | [], _ =>
      rw [List.getLast?_singleton, Option.some.injEq] at h
      rw [← h]
      exact List.mem_cons_self b []
    | c :: t2, ih =>
      rw [List.getLast?_cons_cons] at h
      exact List.mem_cons_of_mem b (ih h)

lemma swap_asymm : ∀ p q : V, ptLt q p → ptLt p q → False :=
  fun _ _ h1 h2 => ptLt_asymm h1 h2

/-- On the upper chain, every non extreme vertex sees every pair of hull
points around it as a strict right turn. -/
lemma chordal_upper (t0 tl : V) (UA DA : List V)
    (hUsort : UA.Pairwise (fun a b => ptLt b a)) (hUrt : RT3 UA)
    (hDsort : DA.Pairwise ptLt) (hDrt : RT3 DA)
    (hUhead : UA.head? = some tl) (hUlast : UA.getLast? = some t0)
    (hDhead : DA.head? = some t0) (hDlast : DA.getLast? = some tl)
    (hmin : ∀ y, (y ∈ UA ∨ y ∈ DA) → y = t0 ∨ ptLt t0 y)
    (hmax : ∀ y, (y ∈ UA ∨ y ∈ DA) → y = tl ∨ ptLt y tl) :
    ∀ x ∈ UA, x ≠ t0 → x ≠ tl →
      ∀ a b, (a ∈ UA ∨ a ∈ DA) → (b ∈ UA ∨ b ∈ DA) →
        ptLt a x → ptLt x b → cross a x b < 0 := by
  intro x hxU hx0 hxl a b hamem hbmem hax hxb
  have ht0U : t0 ∈ UA := mem_of_getLast? hUlast
  have htlU : tl ∈ UA := mem_of_head? hUhead
  have ht0D : t0 ∈ DA := mem_of_head? hDhead
  have htlD : tl ∈ DA := mem_of_getLast? hDlast
  have hchordU : ∀ p q r : V, p ∈ UA → q ∈ UA → r ∈ UA → ptLt p q → ptLt q r →
      cross p q r < 0 := by
    intro p q r hp hq hr hpq hqr
    have hs := sublist3_of_mem swap_asymm UA r q p hUsort hr hq hp hqr hpq
    exact convex_acc UA hUsort hUrt r q p hs
  have hchordD : ∀ p q r : V, p ∈ DA → q ∈ DA → r ∈ DA → ptLt p q → ptLt q r →
      0 < cross p q r := by
    intro p q r hp hq hr hpq hqr
    have hs := sublist3_of_mem (fun p q h1 h2 => ptLt_asymm h1 h2) DA p q r
      hDsort hp hq hr hpq hqr
    exact convex_acc_incr DA hDsort hDrt p q r hs
  have h0x : ptLt t0 x := by
    rcases hmin x (Or.inl hxU) with h | h
    · exact absurd h hx0
    · exact h
  have hxtl : ptLt x tl := by
    rcases hmax x (Or.inl hxU) with h | h
    · exact absurd h hxl
    · exact h
  have hLx : cross t0 x tl < 0 := hchordU t0 x tl ht0U hxU htlU h0x hxtl
  by_cases haU : a ∈ UA
  · by_cases hbU : b ∈ UA
    · exact hchordU a x b haU hxU hbU hax hxb
    · have hbD : b ∈ DA := by
        rcases hbmem with h | h
        · exact absurd h hbU
        · exact h
      have hb0 : b ≠ t0 := fun h => hbU (h ▸ ht0U)
      have hbl : b ≠ tl := fun h => hbU (h ▸ htlU)
      have h0b : ptLt t0 b := by
        rcases hmin b (Or.inr hbD) with h | h
        · exact absurd h hb0
        · exact h
      have hbtl : ptLt b tl := by
        rcases hmax b (Or.inr hbD) with h | h
        · exact absurd h hbl
        · exact h
      have hLb : 0 < cross t0 b tl := hchordD t0 b tl ht0D hbD htlD h0b hbtl
      have h2 : 0 < cross x b tl :=
        geomBR (ptLe_of_ptLt h0x) (ptLe_of_ptLt hxb) (ptLe_of_ptLt hbtl) hLx hLb
      have h1 : cross a x tl < 0 := hchordU a x tl haU hxU htlU hax hxtl
      exact geomAR (ptLe_of_ptLt hax) (ptLe_of_ptLt hxb) (ptLe_of_ptLt hbtl) h1 h2
  · have haD : a ∈ DA := by
      rcases hamem with h | h
      · exact absurd h haU
      · exact h
    have ha0 : a ≠ t0 := fun h => haU (h ▸ ht0U)
    have hal : a ≠ tl := fun h => haU (h ▸ htlU)
    have h0a : ptLt t0 a := by
      rcases hmin a (Or.inr haD) with h | h
      · exact absurd h ha0
      · exact h
    have hatl : ptLt a tl := by
      rcases hmax a (Or.inr haD) with h | h
      · exact absurd h hal
      · exact h
    have hLa : 0 < cross t0 a tl := hchordD t0 a tl ht0D haD htlD h0a hatl
    by_cases hbU : b ∈ UA
    · have h1 : 0 < cross t0 a x :=
        geomB (ptLe_of_ptLt h0a) (ptLe_of_ptLt hax) (ptLe_of_ptLt hxtl) hLa hLx
      have h2 : cross t0 x b < 0 := hchordU t0 x b ht0U hxU hbU h0x hxb
      exact geomA (ptLe_of_ptLt h0a) (ptLe_of_ptLt hax) (ptLe_of_ptLt hxb) h1 h2
    · have hbD : b ∈ DA := by
        rcases hbmem with h | h
        · exact absurd h hbU
        · exact h
      have hb0 : b ≠ t0 := fun h => hbU (h ▸ ht0U)
      have hbl : b ≠ tl := fun h => hbU (h ▸ htlU)
      have h0b : ptLt t0 b := by
        rcases hmin b (Or.inr hbD) with h | h
        · exact absurd h hb0
        · exact h
      have hbtl : ptLt b tl := by
        rcases hmax b (Or.inr hbD) with h | h
        · exact absurd h hbl
        · exact h
      have hLb : 0 < cross t0 b tl := hchordD t0 b tl ht0D hbD htlD h0b hbtl
      exact geomC (ptLe_of_ptLt h0a) (ptLe_of_ptLt hax) (ptLe_of_ptLt hxb)
        (ptLe_of_ptLt hbtl) hLa hLb hLx

/-- On the lower chain, every non extreme vertex sees every pair of hull
points around it as a strict left turn. -/
lemma chordal_lower (t0 tl : V) (UA DA : List V)
    (hUsort : UA.Pairwise (fun a b => ptLt b a)) (hUrt : RT3 UA)
    (hDsort : DA.Pairwise ptLt) (hDrt : RT3 DA)
    (hUhead : UA.head? = some tl) (hUlast : UA.getLast? = some t0)
    (hDhead : DA.head? = some t0) (hDlast : DA.getLast? = some tl)
    (hmin : ∀ y, (y ∈ UA ∨ y ∈ DA) → y = t0 ∨ ptLt t0 y)
    (hmax : ∀ y, (y ∈ UA ∨ y ∈ DA) → y = tl ∨ ptLt y tl) :
    ∀ x ∈ DA, x ≠ t0 → x ≠ tl →
      ∀ a b, (a ∈ UA ∨ a ∈ DA) → (b ∈ UA ∨ b ∈ DA) →
        ptLt a x → ptLt x b → 0 < cross a x b := by
  intro x hxD hx0 hxl a b hamem hbmem hax hxb
  have hU2sort : (DA.map pneg).Pairwise (fun a b => ptLt b a) := by
    rw [List.pairwise_map]
    exact hDsort.imp (fun h => ptLt_pneg.mpr h)
  have hD2sort : (UA.map pneg).Pairwise ptLt := by
    rw [List.pairwise_map]
    exact hUsort.imp (fun h => ptLt_pneg.mpr h)
  have hU2rt : RT3 (DA.map pneg) := (RT3_map_pneg DA).mpr hDrt
  have hD2rt : RT3 (UA.map pneg) := (RT3_map_pneg UA).mpr hUrt
  have hU2head : (DA.map pneg).head? = some (pneg t0) := by
    rw [List.head?_map, hDhead, Option.map_some']
  have hU2last : (DA.map pneg).getLast? = some (pneg tl) := by
    rw [List.getLast?_map, hDlast, Option.map_some']
  have hD2head : (UA.map pneg).head? = some (pneg tl) := by
    rw [List.head?_map, hUhead, Option.map_some']
  have hD2last : (UA.map pneg).getLast? = some (pneg t0) := by
    rw [List.getLast?_map, hUlast, Option.map_some']
  have hmem2 : ∀ y : V, (y ∈ DA.map pneg ∨ y ∈ UA.map pneg) →
      ∃ z : V, y = pneg z ∧ (z ∈ UA ∨ z ∈ DA) := by
    intro y hy
    rcases hy with hy | hy
    · rcases List.mem_map.mp hy with ⟨z, hz, he⟩
      exact ⟨z, he.symm, Or.inr hz⟩
    · rcases List.mem_map.mp hy with ⟨z, hz, he⟩
      exact ⟨z, he.symm, Or.inl hz⟩
  have hmin2 : ∀ y, (y ∈ DA.map pneg ∨ y ∈ UA.map pneg) →
      y = pneg tl ∨ ptLt (pneg tl) y := by
    intro y hy
    rcases hmem2 y hy with ⟨z, he, hz⟩
    rcases hmax z hz with h | h
    · exact Or.inl (by rw [he, h])
    · exact Or.inr (by rw [he]; exact ptLt_pneg.mpr h)
  have hmax2 : ∀ y, (y ∈ DA.map pneg ∨ y ∈ UA.map pneg) →
      y = pneg t0 ∨ ptLt y (pneg t0) := by
    intro y hy
    rcases hmem2 y hy with ⟨z, he, hz⟩
    rcases hmin z hz with h | h
    · exact Or.inl (by rw [he, h])
    · exact Or.inr (by rw [he]; exact ptLt_pneg.mpr h)
  have hkey := chordal_upper (pneg tl) (pneg t0) (DA.map pneg) (UA.map pneg)
    hU2sort hU2rt hD2sort hD2rt hU2head hU2last hD2head hD2last hmin2 hmax2
    (pneg x) (List.mem_map.mpr ⟨x, hxD, rfl⟩)
    (fun h => hxl (pneg_injective _ _ h)) (fun h => hx0 (pneg_injective _ _ h))
    (pneg b) (pneg a)
  have hbm : pneg b ∈ DA.map pneg ∨ pneg b ∈ UA.map pneg := by
    rcases hbmem with h | h
    · exact Or.inr (List.mem_map.mpr ⟨b, h, rfl⟩)
    · exact Or.inl (List.mem_map.mpr ⟨b, h, rfl⟩)
  have ham : pneg a ∈ DA.map pneg ∨ pneg a ∈ UA.map pneg := by
    rcases hamem with h | h
    · exact Or.inr (List.mem_map.mpr ⟨a, h, rfl⟩)
    · exact Or.inl (List.mem_map.mpr ⟨a, h, rfl⟩)
  have hres : cross (pneg b) (pneg x) (pneg a) < 0 :=
    hkey hbm ham (ptLt_pneg.mpr hxb) (ptLt_pneg.mpr hax)
  rw [cross_pneg] at hres
  have hsw : cross a x b = -cross b x a := cross_swap13 a x b
  linarith

/-! ### Properties of the sort step -/

lemma sortPts_sorted (l : List V) : (sortPts l).Sorted ptLe :=
  List.sorted_insertionSort ptLe l.dedup

lemma sortPts_mem {l : List V} {y : V} : y ∈ sortPts l ↔ y ∈ l := by
  rw [sortPts, (List.perm_insertionSort ptLe l.dedup).mem_iff]
  exact List.mem_dedup

lemma sortPts_nodup (l : List V) : (sortPts l).Nodup :=
  ((List.perm_insertionSort ptLe l.dedup).nodup_iff).mpr l.nodup_dedup

lemma sortPts_pairwise (l : List V) : (sortPts l).Pairwise ptLt := by
  have h1 : (sortPts l).Pairwise ptLe := sortPts_sorted l
  have h2 : (sortPts l).Pairwise (fun a b : V => a ≠ b) := sortPts_nodup l
  exact (h1.and h2).imp (fun h => ptLt_of_ptLe_ne h.1 h.2)

lemma sortPts_toFinset (l : List V) : (sortPts l).toFinset = l.toFinset := by
  ext y
  simp only [List.mem_toFinset]
  exact sortPts_mem

lemma sortPts_single (p : V) : sortPts [p] = [p] := by
  rw [sortPts]
  rw [List.dedup_cons_of_not_mem (by simp), List.dedup_nil]
  rfl

/-! ### Heads and last elements of strictly sorted lists -/

lemma pairwise_head_min {S : List V} {t0 : V} {tS : List V} (hS : S = t0 :: tS)
    (hsort : S.Pairwise ptLt) : ∀ y ∈ S, y = t0 ∨ ptLt t0 y := by
  subst hS
  rw [List.pairwise_cons] at hsort
  intro y hy
  rcases List.mem_cons.mp hy with h | h
  · exact Or.inl h
  · exact Or.inr (hsort.1 y h)

lemma pairwise_getLast_max : ∀ (S : List V), S.Pairwise ptLt →
    ∀ tl, S.getLast? = some tl → ∀ y ∈ S, y = tl ∨ ptLt y tl := by
  intro S
  induction S with
  | nil => intro _ tl h; cases h
  | cons a t ih =>
    intro hsort tl hlast y hy
    match t, ih, hsort, hlast, hy with
    | [], _, _, hlast, hy =>
      rw [List.getLast?_singleton, Option.some.injEq] at hlast
      rw [List.mem_singleton] at hy
      exact Or.inl (hy.trans hlast)
    | b :: t2, ih, hsort, hlast, hy =>
      rw [List.getLast?_cons_cons] at hlast
      rw [List.pairwise_cons] at hsort
      rcases List.mem_cons.mp hy with h | h
      · right
        rw [h]
        exact hsort.1 tl (mem_of_getLast? hlast)
      · exact ih hsort.2 tl hlast y h

/-- An element of a list other than its first and last element lies in the
middle part, the one the source keeps of the lower chain. -/
lemma mem_middle {l : List V} {x h0 hl : V} (hx : x ∈ l)
    (hhead : l.head? = some h0) (hlast : l.getLast? = some hl)
    (hx0 : x ≠ h0) (hxl : x ≠ hl) : x ∈ (l.drop 1).dropLast := by
  match l, hhead with
  | a :: t, hhead =>
    rw [List.head?_cons, Option.some.injEq] at hhead
    have hxt : x ∈ t := by
      rcases List.mem_cons.mp hx with h | h
      · exact absurd (h.trans hhead) hx0
      · exact h
    have htne : t ≠ [] := List.ne_nil_of_mem hxt
    have hlt : t.getLast? = some hl := by
      match t, htne, hlast with
      | b :: t2, _, hlast =>
        rw [List.getLast?_cons_cons] at hlast
        exact hlast
    have hdec : t.dropLast ++ [t.getLast htne] = t := List.dropLast_append_getLast htne
    have hgl : t.getLast htne = hl := by
      have h2 : t.getLast? = some (t.getLast htne) := List.getLast?_eq_getLast t htne
      rw [hlt, Option.some.injEq] at h2
      exact h2.symm
    have hdrop : (a :: t).drop 1 = t := by rw [List.drop_one, List.tail_cons]
    rw [hdrop]
    rw [← hdec] at hxt
    rcases List.mem_append.mp hxt with h | h
    · exact h
    · rw [List.mem_singleton, hgl] at h
      exact absurd h hxl

/-! ### Unfolding the hull construction -/

lemma getConvexHull_nil {pts : List V} (h : sortPts pts = []) :
    getConvexHull pts = [] := by
  unfold getConvexHull
  rw [h]

lemma getConvexHull_single {pts : List V} {p : V} (h : sortPts pts = [p]) :
    getConvexHull pts = [p] := by
  unfold getConvexHull
  rw [h]

lemma getConvexHull_cons {pts : List V} {p0 p1 q0 q1 : V} {rest qrest : List V}
    (h : sortPts pts = p0 :: p1 :: rest)
    (hr : (sortPts pts).reverse = q0 :: q1 :: qrest) :
    getConvexHull pts = (chainRev [p1, p0] rest).reverse ++
      (((chainRev [q1, q0] qrest).reverse).drop 1).dropLast := by
  unfold getConvexHull
  rw [hr, h]

/-- Head and last element of a finished chain. -/
lemma chain_head_last (t0 t1 : V) (rest : List V) :
    (chainRev [t1, t0] rest).head? = (t0 :: t1 :: rest).getLast? ∧
    (chainRev [t1, t0] rest).getLast? = some t0 := by
  constructor
  · match rest with
    | [] =>
      rw [chainRev_nil, List.getLast?_cons_cons, List.getLast?_singleton,
        List.head?_cons]
    | r :: rs =>
      rw [chainRev_head (r :: rs) [t1, t0] (by simp), List.getLast?_cons_cons,
        List.getLast?_cons_cons]
  · rw [chainRev_getLast rest [t1, t0] (by simp), List.getLast?_cons_cons,
      List.getLast?_singleton]

/-! ### Survival of chordally extreme points in the chains -/

lemma rev_shape {pts : List V} {t0 t1 : V} {rest : List V}
    (hS : sortPts pts = t0 :: t1 :: rest) :
    ∃ q0 q1 qrest, (sortPts pts).reverse = q0 :: q1 :: qrest := by
  rcases h : (sortPts pts).reverse with _ | ⟨a, _ | ⟨b, r⟩⟩
  · exfalso
    have h2 := congrArg List.length h
    rw [List.length_reverse, hS] at h2
    simp at h2
  · exfalso
    have h2 := congrArg List.length h
    rw [List.length_reverse, hS] at h2
    simp [List.length_cons] at h2
  · exact ⟨a, b, r, rfl⟩

/-- A point of the sorted list that turns right through every pair of its
sorted neighbours survives the upper chain, hence is in the hull. -/
lemma hull_keep_up (pts : List V) (t0 t1 : V) (rest : List V)
    (hS : sortPts pts = t0 :: t1 :: rest) (x : V) (hx : x ∈ sortPts pts)
    (Hx : ∀ p ∈ sortPts pts, ∀ s ∈ sortPts pts,
      ptLt p x → ptLt x s → cross p x s < 0) :
    x ∈ getConvexHull pts := by
  obtain ⟨q0, q1, qrest, hrev⟩ := rev_shape hS
  rw [getConvexHull_cons hS hrev]
  apply List.mem_append.mpr
  left
  rw [List.mem_reverse]
  have hpair : (sortPts pts).Pairwise ptLt := sortPts_pairwise pts
  rw [hS] at hpair
  have hp1 := List.pairwise_cons.mp hpair
  have hp2 := List.pairwise_cons.mp hp1.2
  refine @chainRev_keep (sortPts pts) x ptLt Hx rest [t1, t0] ?_ ?_ ?_ hp2.2 ?_ ?_
  · intro a ha
    rw [hS]
    rcases List.mem_cons.mp ha with h | h
    · rw [h]; exact List.mem_cons_of_mem _ (List.mem_cons_self _ _)
    · rw [List.mem_singleton] at h; rw [h]; exact List.mem_cons_self _ _
  · intro s hs
    rw [hS]
    exact List.mem_cons_of_mem _ (List.mem_cons_of_mem _ hs)
  · refine List.pairwise_cons.mpr ⟨?_, List.pairwise_singleton _ _⟩
    intro y hy
    rw [List.mem_singleton] at hy
    rw [hy]
    exact hp1.1 t1 (List.mem_cons_self _ _)
  · intro s hs a ha
    rcases List.mem_cons.mp ha with h | h
    · rw [h]; exact hp2.1 s hs
    · rw [List.mem_singleton] at h; rw [h]
      exact hp1.1 s (List.mem_cons_of_mem _ hs)
  · rw [hS] at hx
    rcases List.mem_cons.mp hx with h | hx2
    · refine Or.inl ?_
      rw [h]
      exact List.mem_cons_of_mem _ (List.mem_singleton.mpr rfl)
    · rcases List.mem_cons.mp hx2 with h | h
      · refine Or.inl ?_
        rw [h]
        exact List.mem_cons_self _ _
      · exact Or.inr h

/-- A point of the sorted list, other than the two extremes, that turns left
through every pair of its sorted neighbours survives the lower chain, hence
is in the hull: the lower chain walks the reversed list, so its kept middle
part is exactly this. -/
lemma hull_keep_low (pts : List V) (t0 t1 : V) (rest : List V)
    (hS : sortPts pts = t0 :: t1 :: rest) (tl : V)
    (hlast : (sortPts pts).getLast? = some tl) (x : V) (hx : x ∈ sortPts pts)
    (hx0 : x ≠ t0) (hxl : x ≠ tl)
    (Hx : ∀ p ∈ sortPts pts, ∀ s ∈ sortPts pts,
      ptLt x p → ptLt s x → cross p x s < 0) :
    x ∈ getConvexHull pts := by
  obtain ⟨q0, q1, qrest, hrev⟩ := rev_shape hS
  rw [getConvexHull_cons hS hrev]
  apply List.mem_append.mpr
  right
  have hpair : (sortPts pts).Pairwise ptLt := sortPts_pairwise pts
  have hrpair : ((sortPts pts).reverse).Pairwise (fun a b => ptLt b a) := by
    rw [List.pairwise_reverse]
    exact hpair
  rw [hrev] at hrpair
  have hp1 := List.pairwise_cons.mp hrpair
  have hp2 := List.pairwise_cons.mp hp1.2
  have hxrev : x ∈ q0 :: q1 :: qrest := by
    rw [← hrev, List.mem_reverse]
    exact hx
  have hrevsub : ∀ y, y ∈ q0 :: q1 :: qrest → y ∈ sortPts pts := by
    intro y hy
    rw [← List.mem_reverse, hrev]
    exact hy
  have hmemDA : x ∈ chainRev [q1, q0] qrest := by
    refine @chainRev_keep (sortPts pts) x (fun a b => ptLt b a) Hx qrest [q1, q0]
      ?_ ?_ ?_ hp2.2 ?_ ?_
    · intro a ha
      refine hrevsub a ?_
      rcases List.mem_cons.mp ha with h | h
      · rw [h]; exact List.mem_cons_of_mem _ (List.mem_cons_self _ _)
      · rw [List.mem_singleton] at h; rw [h]; exact List.mem_cons_self _ _
    · intro s hs
      exact hrevsub s (List.mem_cons_of_mem _ (List.mem_cons_of_mem _ hs))
    · refine List.pairwise_cons.mpr ⟨?_, List.pairwise_singleton _ _⟩
      intro y hy
      rw [List.mem_singleton] at hy
      rw [hy]
      exact hp1.1 q1 (List.mem_cons_self _ _)
    · intro s hs a ha
      rcases List.mem_cons.mp ha with h | h
      · rw [h]; exact hp2.1 s hs
      · rw [List.mem_singleton] at h; rw [h]
        exact hp1.1 s (List.mem_cons_of_mem _ hs)
    · rcases List.mem_cons.mp hxrev with h | hx2
      · refine Or.inl ?_
        rw [h]
        exact List.mem_cons_of_mem _ (List.mem_singleton.mpr rfl)
      · rcases List.mem_cons.mp hx2 with h | h
        · refine Or.inl ?_
          rw [h]
          exact List.mem_cons_self _ _
        · exact Or.inr h
  have hchl := chain_head_last q0 q1 qrest
  have hq0 : q0 = tl := by
    have h1 : ((sortPts pts).reverse).head? = some tl := by
      rw [List.head?_reverse, hlast]
    rw [hrev, List.head?_cons, Option.some.injEq] at h1
    exact h1
  have hDhead : ((chainRev [q1, q0] qrest).reverse).head? = some tl := by
    rw [List.head?_reverse, hchl.2, hq0]
  have hDlast : ((chainRev [q1, q0] qrest).reverse).getLast? = some t0 := by
    rw [List.getLast?_reverse, hchl.1, ← hrev, List.getLast?_reverse, hS,
      List.head?_cons]
  exact mem_middle (List.mem_reverse.mpr hmemDA) hDhead hDlast hxl hx0

/-- Everything the idempotence argument needs about one hull run: both
extremes of the sorted input are in the hull, the hull points all come from
the sorted input, and every hull point other than the extremes satisfies the
chordal condition of its chain with respect to all pairs of hull points
around it. -/
lemma hull_main (pts : List V) (t0 t1 : V) (rest : List V)
    (hS : sortPts pts = t0 :: t1 :: rest) (tl : V)
    (hlast : (sortPts pts).getLast? = some tl) :
    t0 ∈ getConvexHull pts ∧ tl ∈ getConvexHull pts ∧
    (∀ y ∈ getConvexHull pts, y ∈ sortPts pts) ∧
    ∀ x ∈ getConvexHull pts, x ≠ t0 → x ≠ tl →
      (∀ p ∈ getConvexHull pts, ∀ s ∈ getConvexHull pts,
          ptLt p x → ptLt x s → cross p x s < 0) ∨
      (∀ p ∈ getConvexHull pts, ∀ s ∈ getConvexHull pts,
          ptLt x p → ptLt s x → cross p x s < 0) := by
  obtain ⟨q0, q1, qrest, hrev⟩ := rev_shape hS
  have hHull := getConvexHull_cons hS hrev
  have hpair : (sortPts pts).Pairwise ptLt := sortPts_pairwise pts
  have hpairS : (t0 :: t1 :: rest).Pairwise ptLt := by rw [← hS]; exact hpair
  have hp1 := List.pairwise_cons.mp hpairS
  have hp2 := List.pairwise_cons.mp hp1.2
  have hrpair : ((sortPts pts).reverse).Pairwise (fun a b => ptLt b a) := by
    rw [List.pairwise_reverse]
    exact hpair
  rw [hrev] at hrpair
  have hq1 := List.pairwise_cons.mp hrpair
  have hq2 := List.pairwise_cons.mp hq1.2
  have hrevsub : ∀ y, y ∈ q0 :: q1 :: qrest → y ∈ sortPts pts := by
    intro y hy
    rw [← List.mem_reverse, hrev]
    exact hy
  have hq0 : q0 = tl := by
    have h1 : ((sortPts pts).reverse).head? = some tl := by
      rw [List.head?_reverse, hlast]
    rw [hrev, List.head?_cons, Option.some.injEq] at h1
    exact h1
  have hUchl := chain_head_last t0 t1 rest
  have hUhead : (chainRev [t1, t0] rest).head? = some tl := by
    rw [hUchl.1, ← hS, hlast]
  have hUlast : (chainRev [t1, t0] rest).getLast? = some t0 := hUchl.2
  have hUpair : (chainRev [t1, t0] rest).Pairwise (fun a b => ptLt b a) := by
    refine chainRev_pairwise rest [t1, t0] ?_ hp2.2 ?_
    · refine List.pairwise_cons.mpr ⟨?_, List.pairwise_singleton _ _⟩
      intro y hy
      rw [List.mem_singleton] at hy
      rw [hy]
      exact hp1.1 t1 (List.mem_cons_self _ _)
    · intro s hs a ha
      rcases List.mem_cons.mp ha with h | h
      · rw [h]; exact hp2.1 s hs
      · rw [List.mem_singleton] at h; rw [h]
        exact hp1.1 s (List.mem_cons_of_mem _ hs)
  have hUrt : RT3 (chainRev [t1, t0] rest) :=
    chainRev_RT3 rest [t1, t0] (by exact trivial)
  have hDchl := chain_head_last q0 q1 qrest
  have hDhead : (chainRev [q1, q0] qrest).head? = some t0 := by
    rw [hDchl.1, ← hrev, List.getLast?_reverse, hS, List.head?_cons]
  have hDlast : (chainRev [q1, q0] qrest).getLast? = some tl := by
    rw [hDchl.2, hq0]
  have hDpair : (chainRev [q1, q0] qrest).Pairwise ptLt := by
    refine chainRev_pairwise qrest [q1, q0] ?_ hq2.2 ?_
    · refine List.pairwise_cons.mpr ⟨?_, List.pairwise_singleton _ _⟩
      intro y hy
      rw [List.mem_singleton] at hy
      rw [hy]
      exact hq1.1 q1 (List.mem_cons_self _ _)
    · intro s hs a ha
      rcases List.mem_cons.mp ha with h | h
      · rw [h]; exact hq2.1 s hs
      · rw [List.mem_singleton] at h; rw [h]
        exact hq1.1 s (List.mem_cons_of_mem _ hs)
  have hDrt : RT3 (chainRev [q1, q0] qrest) :=
    chainRev_RT3 qrest [q1, q0] (by exact trivial)
  have hUsub : ∀ y ∈ chainRev [t1, t0] rest, y ∈ sortPts pts := by
    intro y hy
    rcases chainRev_mem rest [t1, t0] y hy with h | h
    · rw [hS]
      rcases List.mem_cons.mp h with h2 | h2
      · rw [h2]; exact List.mem_cons_of_mem _ (List.mem_cons_self _ _)
      · rw [List.mem_singleton] at h2; rw [h2]; exact List.mem_cons_self _ _
    · rw [hS]; exact List.mem_cons_of_mem _ (List.mem_cons_of_mem _ h)
  have hDsub : ∀ y ∈ chainRev [q1, q0] qrest, y ∈ sortPts pts := by
    intro y hy
    rcases chainRev_mem qrest [q1, q0] y hy with h | h
    · refine hrevsub y ?_
      rcases List.mem_cons.mp h with h2 | h2
      · rw [h2]; exact List.mem_cons_of_mem _ (List.mem_cons_self _ _)
      · rw [List.mem_singleton] at h2; rw [h2]; exact List.mem_cons_self _ _
    · exact hrevsub y (List.mem_cons_of_mem _ (List.mem_cons_of_mem _ h))
  have hmemHull : ∀ y ∈ getConvexHull pts,
      y ∈ chainRev [t1, t0] rest ∨ y ∈ chainRev [q1, q0] qrest := by
    intro y hy
    rw [hHull] at hy
    rcases List.mem_append.mp hy with h | h
    · exact Or.inl (List.mem_reverse.mp h)
    · right
      rw [← List.mem_reverse]
      have hsub : List.Sublist
          ((((chainRev [q1, q0] qrest).reverse).drop 1).dropLast)
          ((chainRev [q1, q0] qrest).reverse) :=
        (List.dropLast_sublist _).trans (List.drop_sublist 1 _)
      exact hsub.subset h
  have hmin : ∀ y, (y ∈ chainRev [t1, t0] rest ∨ y ∈ chainRev [q1, q0] qrest) →
      y = t0 ∨ ptLt t0 y := by
    intro y hy
    have hyS : y ∈ sortPts pts := by
      rcases hy with h | h
      · exact hUsub y h
      · exact hDsub y h
    rw [hS] at hyS
    exact pairwise_head_min rfl hpairS y hyS
  have hmax : ∀ y, (y ∈ chainRev [t1, t0] rest ∨ y ∈ chainRev [q1, q0] qrest) →
      y = tl ∨ ptLt y tl := by
    intro y hy
    have hyS : y ∈ sortPts pts := by
      rcases hy with h | h
      · exact hUsub y h
      · exact hDsub y h
    exact pairwise_getLast_max (sortPts pts) hpair tl hlast y hyS
  have ht0U : t0 ∈ chainRev [t1, t0] rest := mem_of_getLast? hUlast
  have htlU : tl ∈ chainRev [t1, t0] rest := mem_of_head? hUhead
  refine ⟨?_, ?_, ?_, ?_⟩
  · rw [hHull]
    exact List.mem_append.mpr (Or.inl (List.mem_reverse.mpr ht0U))
  · rw [hHull]
    exact List.mem_append.mpr (Or.inl (List.mem_reverse.mpr htlU))
  · intro y hy
    rcases hmemHull y hy with h | h
    · exact hUsub y h
    · exact hDsub y h
  · intro x hx hx0 hxl
    rcases hmemHull x hx with hxU | hxD
    · left
      intro p hp s hs hpx hxs
      exact chordal_upper t0 tl (chainRev [t1, t0] rest) (chainRev [q1, q0] qrest)
        hUpair hUrt hDpair hDrt hUhead hUlast hDhead hDlast hmin hmax
        x hxU hx0 hxl p s (hmemHull p hp) (hmemHull s hs) hpx hxs
    · right
      intro p hp s hs hxp hsx
      have h1 := chordal_lower t0 tl (chainRev [t1, t0] rest) (chainRev [q1, q0] qrest)
        hUpair hUrt hDpair hDrt hUhead hUlast hDhead hDlast hmin hmax
        x hxD hx0 hxl s p (hmemHull s hs) (hmemHull p hp) hsx hxp
      have h2 : cross s x p = -cross p x s := cross_swap13 s x p
      linarith

/-- C8: the convex hull construction is idempotent: for every finite point
set, `getConvexHull` applied to the polygon `getConvexHull pts` yields the
same vertex set as `getConvexHull pts`. -/
theorem convexHull_idempotent (pts : List V) :
    (getConvexHull (getConvexHull pts)).toFinset = (getConvexHull pts).toFinset := by
  rcases hShape : sortPts pts with _ | ⟨t0, _ | ⟨t1, rest⟩⟩
  · rw [getConvexHull_nil hShape, getConvexHull_nil (by simp [sortPts])]
  · rw [getConvexHull_single hShape, getConvexHull_single (sortPts_single t0)]
  · obtain ⟨tl, hlast⟩ : ∃ tl, (sortPts pts).getLast? = some tl := by
      rw [hShape]
      exact ⟨(t0 :: t1 :: rest).getLast (by simp), List.getLast?_eq_getLast _ _⟩
    obtain ⟨ht0H, htlH, hHsub, hHchord⟩ := hull_main pts t0 t1 rest hShape tl hlast
    have hpairS : (sortPts pts).Pairwise ptLt := sortPts_pairwise pts
    have hminS : ∀ y ∈ sortPts pts, y = t0 ∨ ptLt t0 y := by
      intro y hy
      rw [hShape] at hy
      exact pairwise_head_min rfl (by rw [← hShape]; exact hpairS) y hy
    have hmaxS : ∀ y ∈ sortPts pts, y = tl ∨ ptLt y tl :=
      pairwise_getLast_max (sortPts pts) hpairS tl hlast
    have ht0tl : ptLt t0 tl := by
      have h2 : (sortPts pts).getLast? = (t1 :: rest).getLast? := by
        rw [hShape, List.getLast?_cons_cons]
      have h1 : tl ∈ t1 :: rest := mem_of_getLast? (h2.symm.trans hlast)
      have h3 := (List.pairwise_cons.mp (by rw [← hShape]; exact hpairS)).1
      exact h3 tl h1
    have ht0tl_ne : t0 ≠ tl := ptLt_ne ht0tl
    have ht0S2 : t0 ∈ sortPts (getConvexHull pts) := sortPts_mem.mpr ht0H
    have htlS2 : tl ∈ sortPts (getConvexHull pts) := sortPts_mem.mpr htlH
    obtain ⟨s0, s1, rest2, hS2⟩ : ∃ s0 s1 rest2,
        sortPts (getConvexHull pts) = s0 :: s1 :: rest2 := by
      rcases h : sortPts (getConvexHull pts) with _ | ⟨a, _ | ⟨b, r⟩⟩
      · rw [h] at ht0S2
        exact absurd ht0S2 (List.not_mem_nil t0)
      · rw [h] at ht0S2 htlS2
        rw [List.mem_singleton] at ht0S2 htlS2
        exact absurd (ht0S2.trans htlS2.symm) ht0tl_ne
      · exact ⟨a, b, r, rfl⟩
    have hpairS2 : (sortPts (getConvexHull pts)).Pairwise ptLt := sortPts_pairwise _
    have hminS2 : ∀ y ∈ sortPts (getConvexHull pts), y = s0 ∨ ptLt s0 y := by
      intro y hy
      rw [hS2] at hy
      exact pairwise_head_min rfl (by rw [← hS2]; exact hpairS2) y hy
    have hs0 : s0 = t0 := by
      have h1 : s0 ∈ sortPts (getConvexHull pts) := by
        rw [hS2]
        exact List.mem_cons_self _ _
      have h2 : s0 ∈ sortPts pts := hHsub s0 (sortPts_mem.mp h1)
      rcases hminS s0 h2 with h | h
      · exact h
      · rcases hminS2 t0 ht0S2 with h3 | h3
        · exact h3.symm
        · exact absurd h (fun h4 => ptLt_asymm h3 h4)
    obtain ⟨tl2, hlast2⟩ : ∃ tl2,
        (sortPts (getConvexHull pts)).getLast? = some tl2 := by
      rw [hS2]
      exact ⟨(s0 :: s1 :: rest2).getLast (by simp), List.getLast?_eq_getLast _ _⟩
    have hmaxS2 : ∀ y ∈ sortPts (getConvexHull pts), y = tl2 ∨ ptLt y tl2 :=
      pairwise_getLast_max _ hpairS2 tl2 hlast2
    have htl2 : tl2 = tl := by
      have h1 : tl2 ∈ sortPts pts :=
        hHsub tl2 (sortPts_mem.mp (mem_of_getLast? hlast2))
      rcases hmaxS tl2 h1 with h | h
      · exact h
      · rcases hmaxS2 tl htlS2 with h3 | h3
        · exact h3.symm
        · exact absurd h (fun h4 => ptLt_asymm h3 h4)
    ext y
    simp only [List.mem_toFinset]
    constructor
    · intro hy
      obtain ⟨_, _, hHsub2, _⟩ :=
        hull_main (getConvexHull pts) s0 s1 rest2 hS2 tl2 hlast2
      exact sortPts_mem.mp (hHsub2 y hy)
    · intro hy
      by_cases hy0 : y = t0
      · subst hy0
        refine hull_keep_up (getConvexHull pts) s0 s1 rest2 hS2 y
          (sortPts_mem.mpr hy) ?_
        intro p hp s hs hpy hys
        exfalso
        have hpS : p ∈ sortPts pts := hHsub p (sortPts_mem.mp hp)
        rcases hminS p hpS with h | h
        · rw [h] at hpy
          exact ptLt_irrefl _ hpy
        · exact ptLt_asymm h hpy
      · by_cases hyl : y = tl
        · subst hyl
          refine hull_keep_up (getConvexHull pts) s0 s1 rest2 hS2 y
            (sortPts_mem.mpr hy) ?_
          intro p hp s hs hpy hys
          exfalso
          have hsS : s ∈ sortPts pts := hHsub s (sortPts_mem.mp hs)
          rcases hmaxS s hsS with h | h
          · rw [h] at hys
            exact ptLt_irrefl _ hys
          · exact ptLt_asymm h hys
        · rcases hHchord y hy hy0 hyl with HU | HL
          · refine hull_keep_up (getConvexHull pts) s0 s1 rest2 hS2 y
              (sortPts_mem.mpr hy) ?_
            intro p hp s hs hpy hys
            exact HU p (sortPts_mem.mp hp) s (sortPts_mem.mp hs) hpy hys
          · refine hull_keep_low (getConvexHull pts) s0 s1 rest2 hS2 tl2 hlast2 y
              (sortPts_mem.mpr hy) ?_ ?_ ?_
            · rw [hs0]
              exact hy0
            · rw [htl2]
              exact hyl
            · intro p hp s hs hyp hsy
              exact HL p (sortPts_mem.mp hp) s (sortPts_mem.mp hs) hyp hsy

end Uranium
